import Mathlib

/-!
Verification of mail-downloader-next core components: the occupancy limiter,
the task dispatchers' retry policy, the IMAP ENVELOPE/BODYSTRUCTURE parser,
the provider-handler registry, and the orchestrator's duplicate suppression.
Each definition is a shallow embedding of the corresponding Python source.
-/

namespace MailDL

/-! ## Occupancy limiter (utils/occupancy_limiter.py)

State is modelled as the list of sizes of currently-active holders:
`_total_size` is its sum and `_count` its length.  `__aenter__` admits a
holder when the predicate holds (evaluated atomically under the condition's
lock, as `Condition.wait_for` re-checks the predicate while holding the
lock); `__aexit__` removes the holder's own size. -/

/-- The admission predicate of `OccupancyLimiter.__aenter__` (lines 33-39):
no cap configured means always admit; a request with `size <= max_size` is
admitted when `total_size + size <= max_size`; an oversized request is
admitted only when `count == 0`. -/
def limiterPredicate (maxSize : Option Nat) (totalSize count size : Nat) : Bool :=
  match maxSize with
  | none => true
  | some m => if size ≤ m then totalSize + size ≤ m else count == 0

/-- One transition of the limiter: an acquire (`__aenter__`, lines 32-44)
admits a new holder of some size when the predicate holds; a release
(`__aexit__`, lines 46-50) removes one active holder. -/
inductive LimiterStep (max : Option Nat) : List Nat → List Nat → Prop
  | acquire (s : Nat) (held : List Nat)
      (h : limiterPredicate max held.sum held.length s = true) :
      LimiterStep max held (s :: held)
  | release (pre post : List Nat) (s : Nat) :
      LimiterStep max (pre ++ s :: post) (pre ++ post)

/-- States reachable from the freshly-constructed limiter (no holders) by
any interleaving of acquires and releases. -/
inductive LimiterReachable (max : Option Nat) : List Nat → Prop
  | init : LimiterReachable max []
  | step {a b : List Nat} :
      LimiterReachable max a → LimiterStep max a b → LimiterReachable max b

/-- The claimed invariant: the total reserved size is within the cap, or
exactly one holder is active, or no cap is configured. -/
def limiterInvariant (max : Option Nat) (held : List Nat) : Prop :=
  (∀ m, max = some m → held.sum ≤ m) ∨ held.length = 1 ∨ max = none

lemma limiterInvariant_step (max : Option Nat) {a b : List Nat}
    (hstep : LimiterStep max a b) (ih : limiterInvariant max a) :
    limiterInvariant max b := by
  cases max with
  | none => exact Or.inr (Or.inr rfl)
  | some m =>
    cases hstep with
    | acquire s hd hpred =>
      simp only [limiterPredicate] at hpred
      by_cases hs : s ≤ m
      · rw [if_pos hs] at hpred
        refine Or.inl (fun m' hm' => ?_)
        injection hm' with hm'
        subst hm'
        have hle : a.sum + s ≤ m := by exact_mod_cast of_decide_eq_true hpred
        simp only [List.sum_cons]
        omega
      · rw [if_neg hs] at hpred
        refine Or.inr (Or.inl ?_)
        have hlen : a.length = 0 := by simpa using hpred
        simp [hlen]
    | release pre post s =>
      rcases ih with hsum | hlen | hnone
      · refine Or.inl (fun m' hm' => ?_)
        injection hm' with hm'
        subst hm'
        have := hsum m rfl
        simp only [List.sum_append, List.sum_cons] at this ⊢
        omega
      · have hpp : pre = [] ∧ post = [] := by
          rcases pre with _ | ⟨x, pre⟩
          · rcases post with _ | ⟨y, post⟩
            · exact ⟨rfl, rfl⟩
            · simp at hlen
          · simp at hlen
        rcases hpp with ⟨h1, h2⟩
        subst h1; subst h2
        exact Or.inl (fun m' _ => by simp)
      · exact absurd hnone (by simp)

/-- C1: in every state reachable by any interleaving of acquire and release
operations, either the total reserved size is at most `max_size`, or exactly
one holder is active, or no cap is configured. -/
theorem occupancy_limiter_invariant (max : Option Nat) (held : List Nat)
    (h : LimiterReachable max held) : limiterInvariant max held := by
  induction h with
  | init => exact Or.inl (fun m _ => by simp)
  | step _ hstep ih => exact limiterInvariant_step max hstep ih

/-- Witness: the invariant theorem applied to a concrete reachable state
(cap 10, a single holder of size 7). -/
theorem occupancy_limiter_invariant_witness :
    limiterInvariant (some 10) [7] :=
  occupancy_limiter_invariant (some 10) [7]
    (LimiterReachable.step LimiterReachable.init
      (LimiterStep.acquire 7 [] (by decide)))

/-! ## Error taxonomy and retry policy (mailcore/__init__.py,
mailcore/mail.py, mailcore/crawler.py) -/

/-- The `ErrorTypes` enum (mailcore/__init__.py lines 12-24). -/
inductive ErrorTypes
  | IGNORE
  | CONNECTION_FAILED
  | DECODE_ERROR
  | HANDLE_ERROR
  | HTML_PARSING_ERROR
  | LINK_SEARCHING_ERROR
  | MISSING_MSG_ID
  | REQUEST_ERROR
  | UNKNOWN
  | UNMATCHED_MSG_ID
  deriving DecidableEq, Repr

/-- `is_error_retryable` (mailcore/__init__.py lines 103-104):
only `CONNECTION_FAILED` is retryable. -/
def is_error_retryable (k : ErrorTypes) : Bool :=
  match k with
  | ErrorTypes.CONNECTION_FAILED => true
  | _ => false

/-- The requeue decision applied to an error outcome, shared verbatim by both
dispatchers (mail.py line 199 and crawler.py line 145):
`is_error_retryable(res) and res.task.retries < cfg.max_retries`.
`retries` is the task's counter at decision time (it was incremented once
when the attempt was dispatched). -/
def requeueDecision (maxRetries : Nat) (kind : ErrorTypes) (retries : Nat) : Bool :=
  is_error_retryable kind && decide (retries < maxRetries)

/-- Outcome of one handler attempt: a success `Result` or an error of some
kind. -/
inductive Outcome
  | success
  | failure (k : ErrorTypes)
  deriving DecidableEq, Repr

/-- Whether the dispatcher requeues a task after this attempt's outcome
(success is always terminal; an error is requeued per `requeueDecision`). -/
def attemptRequeued (maxRetries : Nat) (o : Outcome) (retries : Nat) : Bool :=
  match o with
  | Outcome.success => false
  | Outcome.failure k => requeueDecision maxRetries k retries

/-- A complete per-task attempt history under the dispatcher loop.
`Run maxRetries r os` means: a task whose retries counter currently stands
at `r` goes through the attempts with outcomes `os`.  Each dispatch attempt
first increments the retries counter (mail.py line 248, crawler.py line
124), so attempt outcomes are judged at counter `r+1`; a non-final attempt
must have been requeued, and the final attempt is terminal. -/
inductive Run (maxRetries : Nat) : Nat → List Outcome → Prop
  | terminal (r : Nat) (o : Outcome)
      (h : attemptRequeued maxRetries o (r + 1) = false) :
      Run maxRetries r [o]
  | retry (r : Nat) (o : Outcome) (os : List Outcome)
      (h : attemptRequeued maxRetries o (r + 1) = true)
      (hrest : Run maxRetries (r + 1) os) :
      Run maxRetries r (o :: os)

lemma run_length_bound (maxRetries : Nat) :
    ∀ os r, Run maxRetries r os → os.length + r ≤ maxRetries + 1 ∨ os.length ≤ 1 := by
  intro os
  induction os with
  | nil => intro r h; cases h
  | cons o os ih =>
    intro r h
    cases h with
    | terminal r h => right; simp
    | retry r o os h hrest =>
      have hk : r + 1 < maxRetries := by
        cases o with
        | success => simp [attemptRequeued] at h
        | failure k =>
          simp only [attemptRequeued, requeueDecision, Bool.and_eq_true,
            decide_eq_true_eq] at h
          exact h.2
      rcases ih (r + 1) hrest with h1 | h1 <;> simp only [List.length_cons] <;> omega

/-- C2: for either dispatcher, an error outcome is requeued if and only if
its kind is `CONNECTION_FAILED` and the task's retries counter is below
`max_retries` (every other kind is terminal), and a task starting at retries
0 is attempted — hence its handler invoked — at most `max_retries + 1` times
before its terminal outcome is reported. -/
theorem dispatcher_retry_policy (maxRetries : Nat) :
    (∀ k r, requeueDecision maxRetries k r = true ↔
      (k = ErrorTypes.CONNECTION_FAILED ∧ r < maxRetries)) ∧
    (∀ os, Run maxRetries 0 os → os.length ≤ maxRetries + 1) := by
  constructor
  · intro k r
    simp only [requeueDecision, Bool.and_eq_true, decide_eq_true_eq]
    constructor
    · rintro ⟨h1, h2⟩
      refine ⟨?_, h2⟩
      cases k <;> simp_all [is_error_retryable]
    · rintro ⟨h1, h2⟩
      subst h1
      exact ⟨rfl, h2⟩
  · intro os h
    rcases run_length_bound maxRetries os 0 h with h1 | h1 <;> omega

/-- Witness for C2: the retry-policy theorem applied at `max_retries = 2`,
with a concrete two-attempt run (one requeued connection failure, then a
terminal success). -/
theorem dispatcher_retry_policy_witness :
    (requeueDecision 2 ErrorTypes.CONNECTION_FAILED 1 = true ↔
      (ErrorTypes.CONNECTION_FAILED = ErrorTypes.CONNECTION_FAILED ∧ 1 < 2)) ∧
    [Outcome.failure ErrorTypes.CONNECTION_FAILED, Outcome.success].length ≤ 2 + 1 :=
  ⟨(dispatcher_retry_policy 2).1 ErrorTypes.CONNECTION_FAILED 1,
    (dispatcher_retry_policy 2).2
      [Outcome.failure ErrorTypes.CONNECTION_FAILED, Outcome.success]
      (Run.retry 0 _ _ (by decide)
        (Run.terminal 1 Outcome.success (by decide)))⟩

/-! ## IMAP structure parser (utils/imap_structure.py)

Strings are Lean `String`s; all character-level operations are defined over
`String.data` so that proofs reduce to `List Char` reasoning.  Python's
`str.lower` is modelled by mapping `Char.toLower` (they agree on ASCII,
which is all the IMAP protocol tokens use). -/

/-- A nested token: the result of `nest_tokens` — either an individual
token string (still carrying its double quotes when quoted) or a nested
list. -/
inductive NTok
  | str (s : String)
  | list (ts : List NTok)
  deriving Repr

/-- `MULTIPART_SUBTYPES` (imap_structure.py lines 22-33). -/
def MULTIPART_SUBTYPES : List String :=
  ["alternative", "byterange", "digest", "encrypted", "form-data",
   "mixed", "related", "report", "signed", "x-mixed-replace"]

/-- Python `text.replace(a, b)` for single characters. -/
def pyReplaceChar (text : List Char) (a b : Char) : List Char :=
  text.map (fun c => if c = a then b else c)

/-- The identifier-stripping slice `text[text.find(' ')+1:-1]`
(imap_structure.py line 158).  Python `find` returns `-1` when the
character is absent, making the start of the slice `0`. -/
def stripIdentifier (text : List Char) : List Char :=
  let start :=
    match text.findIdx? (· = ' ') with
    | some i => i + 1
    | none => 0
  (text.drop start).dropLast

/-- The scanning loop of `tokenize` (imap_structure.py lines 160-181).
Python tracks a `start` index into the text; this rendering carries the
characters scanned since `start` as the buffer `buf`.  Inside a quoted
region only `"` ends the token (quotes are kept in the token); outside,
`(`, `)` and space are splitters, a space is dropped, brackets become
their own tokens, and a `"` begins a quoted token (discarding any pending
buffer, as Python resets `start` to the quote position).  A trailing
unterminated buffer is dropped, as in the source (nothing is appended
after the loop). -/
def tokenizeAux : List Char → Bool → List Char → List String
  | [], _, _ => []
  | c :: cs, true, buf =>
    if c = '"' then String.mk (buf ++ [c]) :: tokenizeAux cs false []
    else tokenizeAux cs true (buf ++ [c])
  | c :: cs, false, buf =>
    if c = '(' ∨ c = ')' ∨ c = ' ' then
      (if buf.isEmpty then [] else [String.mk buf]) ++
      (if c ≠ ' ' then [String.mk [c]] else []) ++
      tokenizeAux cs false []
    else if c = '"' then tokenizeAux cs true [c]
    else tokenizeAux cs false (buf ++ [c])

/-- `tokenize` (imap_structure.py lines 143-181): newline normalization,
optional identifier stripping, then the scanning loop. -/
def tokenize (text : List Char) (removeIdentifier : Bool := true) : List String :=
  let text := pyReplaceChar text '\n' ' '
  let text := if removeIdentifier then stripIdentifier text else text
  tokenizeAux text false []

/-- The bracket-matching loop of `nest_tokens` (imap_structure.py lines
194-208), with `cur` the innermost list under construction and `stack` the
enclosing ones.  Python appends a child list into its parent before filling
it; here the completed child is appended when its `)` arrives, and any
lists left unclosed at the end are folded back into their parents (which
yields the same result).  A `)` with an empty stack is ignored here; on
such input the Python code would fail with an `IndexError` at the next
append, and no balanced input reaches this case. -/
def nestCollapse : List NTok → List (List NTok) → List NTok
  | cur, [] => cur
  | cur, parent :: rest => nestCollapse (parent ++ [NTok.list cur]) rest

def nestAux : List String → List NTok → List (List NTok) → List NTok
  | [], cur, stack => nestCollapse cur stack
  | t :: ts, cur, stack =>
    if t = "(" then nestAux ts [] (cur :: stack)
    else if t = ")" then
      match stack with
      | [] => nestAux ts cur []
      | parent :: rest => nestAux ts (parent ++ [NTok.list cur]) rest
    else nestAux ts (cur ++ [NTok.str t]) stack

/-- `nest_tokens` (imap_structure.py lines 184-208): the outermost bracket
pair is removed (`tokens[1:-1]`) before nesting. -/
def nest_tokens (tokens : List String) : List NTok :=
  nestAux (tokens.drop 1).dropLast [] []

/-- Python `str.lower`, restricted to the ASCII case mapping. -/
def pyLower (s : String) : String :=
  String.mk (s.data.map Char.toLower)

/-- `res.find('"') == -1` — whether the token carries no double quote. -/
def hasQuote (s : String) : Bool :=
  s.data.contains '"'

/-- `res.replace('"', '')` — drop every double quote. -/
def removeQuotes (s : String) : String :=
  String.mk (s.data.filter (fun c => c ≠ '"'))

/-- The string-interpretation core of `_get_token` (imap_structure.py lines
240-251): an unquoted token is case-folded and `nil` becomes absence; a
quoted token loses its quotes, and additionally — only when
`parse_double_quotes` is set — is case-folded with `unknown` becoming
absence. -/
def getTokenStr (s : String) (parseDoubleQuotes : Bool) : Option String :=
  if hasQuote s = false then
    let s := pyLower s
    if s = "nil" then none else some s
  else
    let s := removeQuotes s
    if parseDoubleQuotes then
      let s := pyLower s
      if s = "unknown" then none else some s
    else some s

/-- `_get_token` on a single nested token (a list is returned unchanged). -/
def getToken (t : NTok) (parseDoubleQuotes : Bool := true) : Option NTok :=
  match t with
  | NTok.str s => (getTokenStr s parseDoubleQuotes).map NTok.str
  | NTok.list l => some (NTok.list l)

/-- `_get_token` with an index: an out-of-range index yields `None`
(imap_structure.py lines 236-239). -/
def getTokenAt (ts : List NTok) (i : Nat) (parseDoubleQuotes : Bool := true) :
    Option NTok :=
  match ts[i]? with
  | none => none
  | some t => getToken t parseDoubleQuotes

/-- A parsed MIME-parameter value: a string, a nested parameter dictionary,
or `None` (the value alternatives of `_ParamType`, imap_structure.py
line 20). -/
inductive ParamVal
  | str (s : String)
  | dict (ps : List (String × ParamVal))
  | null
  deriving Repr

/-- A parameter dictionary, as an insertion-ordered association list (the
model of a Python `dict`). -/
abbrev Params := List (String × ParamVal)

/-- Python `dict` assignment `res[k] = v`: an existing key keeps its
position and gets the new value; a new key is appended. -/
def paramInsert (ps : Params) (k : String) (v : ParamVal) : Params :=
  if ps.any (fun p => p.1 = k) then
    ps.map (fun p => if p.1 = k then (k, v) else p)
  else ps ++ [(k, v)]

/-- The pair-interpretation loop of `parse_pair` (imap_structure.py lines
268-285): tokens are consumed in (key, value) pairs (an odd trailing token
is dropped by `zip`); the key goes through `_get_token` with default
folding and must come out a string (the `assert` fails otherwise); a list
value recurses, any other value goes through `_get_token` with the given
`parse_double_quotes`. -/
def parsePairAux : List NTok → Bool → Params → Option Params
  | [], _, acc => some acc
  | [_], _, acc => some acc
  | k :: v :: rest, pdq, acc =>
    match getToken k true with
    | some (NTok.str ks) =>
      match v with
      | NTok.list l =>
        match parsePairAux l pdq [] with
        | some d => parsePairAux rest pdq (paramInsert acc ks (ParamVal.dict d))
        | none => none
      | NTok.str vs =>
        match getTokenStr vs pdq with
        | some vs' => parsePairAux rest pdq (paramInsert acc ks (ParamVal.str vs'))
        | none => parsePairAux rest pdq (paramInsert acc ks ParamVal.null)
    | _ => none

/-- `parse_pair` on a present token list. -/
def parsePair (ts : List NTok) (pdq : Bool := false) : Option Params :=
  parsePairAux ts pdq []

/-- `Address` (imap_structure.py lines 36-48).  `smtp` has no declared type
in the source (`Any`); it holds whatever `_get_token` produced, so it is
modelled as an optional nested token. -/
structure Address where
  username : String
  domain : String
  display_name : Option String := none
  smtp : Option NTok := none
  deriving Repr

/-- `Envelope` (imap_structure.py lines 65-77). -/
structure Envelope where
  date : Option String := none
  subject : Option String := none
  from_ : Option (List Address) := none
  sender : Option (List Address) := none
  reply_to : Option (List Address) := none
  to_ : Option (List Address) := none
  cc : Option (List Address) := none
  bcc : Option (List Address) := none
  in_replay_to : Option String := none
  message_id : Option String := none
  deriving Repr

/-- One component of a part's `section_list`: a child index or the
synthetic `'text'` component. -/
inductive SecElem
  | num (n : Nat)
  | txt
  deriving DecidableEq, Repr

/-- The `BodyStructureType` tree: `MultiPart` (imap_structure.py lines
122-137) or `NonMultiPart` (lines 95-119).  `language` is stored exactly as
`_get_token` returned it (a string, a raw nested list, or absent). -/
inductive Body
  | multi (section_list : List SecElem) (sub_type : String) (sub_parts : List Body)
      (params : Option Params) (disposition : Option Params)
      (language : Option NTok) (location : Option String)
  | nonMulti (section_list : List SecElem) (main_type sub_type : Option String)
      (params : Option Params) (id : Option String) (description : Option String)
      (encoding : Option String) (size : Option Nat)
      (envelope_structure : Option Envelope) (envelope_body : Option Body)
      (text_line_size : Option Nat) (md5 : Option Nat)
      (disposition : Option Params) (language : Option NTok)
      (location : Option String)

/-- Python `int(...)` on the digit strings produced for sizes, line counts
and md5 fields: parse a non-empty all-digit string as a base-10 natural. -/
def pyInt (s : String) : Option Nat :=
  if s.data ≠ [] ∧ s.data.all Char.isDigit then
    some (Nat.ofDigits 10 ((s.data.map (fun c => c.toNat - '0'.toNat)).reverse))
  else none

/-- The parent-type marker `_IS_MESSAGE` / `_IS_MULTIPART`
(imap_structure.py lines 80-81). -/
inductive PTy
  | isMessage
  | isMultipart
  deriving DecidableEq, Repr

/-- The multipart-detection scan (imap_structure.py lines 299-305): every
immediate string token is interpreted by `_get_token` and compared against
`MULTIPART_SUBTYPES`; nested lists are skipped. -/
def scanMultipart (ts : List NTok) : Bool :=
  ts.any fun t =>
    match t with
    | NTok.str s =>
      match getTokenStr s true with
      | some s' => MULTIPART_SUBTYPES.contains s'
      | none => false
    | NTok.list _ => false

def isListTok : NTok → Bool
  | NTok.list _ => true
  | NTok.str _ => false

/-- `assert isinstance(x, str) or x is None` on a `_get_token` result. -/
def asOptStr : Option NTok → Option (Option String)
  | none => some none
  | some (NTok.str s) => some (some s)
  | some (NTok.list _) => none

/-- `assert isinstance(x, list) or x is None` on a `_get_token` result. -/
def asOptList : Option NTok → Option (Option (List NTok))
  | none => some none
  | some (NTok.list l) => some (some l)
  | some (NTok.str _) => none

/-- `if x is not None: x = int(x)`. -/
def asOptNat : Option String → Option (Option Nat)
  | none => some none
  | some s => (pyInt s).map some

/-- An optional token list put through `parse_pair` (with the default
`parse_double_quotes=False`). -/
def asOptParams (t : Option NTok) : Option (Option Params) := do
  let l ← asOptList t
  match l with
  | none => pure none
  | some l => (parsePair l).map some

/-- One 4-tuple of an address list (imap_structure.py lines 461-472): the
elements are interpreted without folding; `username` and `domain` must be
strings, `display_name` a string or absent; `smtp` is unconstrained.
A tuple of any other length fails the unpacking. -/
def parseAddressOne (addr : NTok) : Option Address :=
  match addr with
  | NTok.list [a, b, c, d] =>
    let smtp := getToken b false
    match getToken c false, getToken d false, getToken a false with
    | some (NTok.str u), some (NTok.str dm), none =>
      some ⟨u, dm, none, smtp⟩
    | some (NTok.str u), some (NTok.str dm), some (NTok.str dn) =>
      some ⟨u, dm, some dn, smtp⟩
    | _, _, _ => none
  | _ => none

/-- An address-list field: `NIL` is absence, otherwise a list of address
tuples (`assert isinstance(x, list) or x is None` then `parse_address`). -/
def asAddrList (t : Option NTok) : Option (Option (List Address)) := do
  let l ← asOptList t
  match l with
  | none => pure none
  | some l => (l.mapM parseAddressOne).map some

/-- `_load_envelope_from_nested_tokens` (imap_structure.py lines 450-523):
ten fixed positional fields; `date`, `subject`, `in_replay_to` and
`message_id` are read without double-quote folding; the six address fields
with the default folding (they are lists, returned unchanged). -/
def loadEnvelopeFromNested (ts : List NTok) : Option Envelope := do
  let date ← asOptStr (getTokenAt ts 0 false)
  let subject ← asOptStr (getTokenAt ts 1 false)
  let from_ ← asAddrList (getTokenAt ts 2)
  let sender ← asAddrList (getTokenAt ts 3)
  let reply_to ← asAddrList (getTokenAt ts 4)
  let to_ ← asAddrList (getTokenAt ts 5)
  let cc ← asAddrList (getTokenAt ts 6)
  let bcc ← asAddrList (getTokenAt ts 7)
  let in_replay_to ← asOptStr (getTokenAt ts 8 false)
  let message_id ← asOptStr (getTokenAt ts 9 false)
  pure ⟨date, subject, from_, sender, reply_to, to_, cc, bcc,
    in_replay_to, message_id⟩

/-- The trailing md5/disposition/language/location reads shared by every
non-multipart branch (imap_structure.py lines 416-447), starting at token
index `i`. -/
def loadNonMultiTail (ts : List NTok) (i : Nat) (sect : List SecElem)
    (mainType subType : Option String) (params : Option Params)
    (id description encoding : Option String) (size : Option Nat)
    (env : Option Envelope) (envBody : Option Body)
    (lines : Option Nat) : Option Body := do
  let md5S ← asOptStr (getTokenAt ts i)
  let md5 ← asOptNat md5S
  let disposition ← asOptParams (getTokenAt ts (i + 1))
  let language := getTokenAt ts (i + 2)
  let location ← asOptStr (getTokenAt ts (i + 3))
  pure (Body.nonMulti sect mainType subType params id description encoding
    size env envBody lines md5 disposition language location)

lemma mem_of_getElemEq {α : Type} :
    ∀ {l : List α} {i : Nat} {a : α}, l[i]? = some a → a ∈ l := by
  intro l
  induction l with
  | nil => intro i a h; simp at h
  | cons x xs ih =>
    intro i a h
    cases i with
    | zero =>
      simp only [List.getElem?_cons_zero, Option.some.injEq] at h
      simp [h]
    | succ n =>
      simp only [List.getElem?_cons_succ] at h
      exact List.mem_cons_of_mem _ (ih h)

/-- The seven leading positional fields of a non-multipart part
(imap_structure.py lines 359-383): main type, sub type, params, id,
description, encoding, size. -/
def loadLeafFields (ts : List NTok) :
    Option (Option String × Option String × Option Params × Option String ×
      Option String × Option String × Option Nat) := do
  let mainType ← asOptStr (getTokenAt ts 0)
  let subType ← asOptStr (getTokenAt ts 1)
  let params ← asOptParams (getTokenAt ts 2)
  let id ← asOptStr (getTokenAt ts 3)
  let description ← asOptStr (getTokenAt ts 4)
  let encoding ← asOptStr (getTokenAt ts 5)
  let sizeS ← asOptStr (getTokenAt ts 6)
  let size ← asOptNat sizeS
  pure (mainType, subType, params, id, description, encoding, size)

/-- The optional text line-count field (imap_structure.py lines 388-393):
read at index 7 when the main type is `text`; returns the line count and
the next index. -/
def loadTextLines (ts : List NTok) (mainType : Option String) :
    Option (Option Nat × Nat) :=
  if mainType = some "text" then
    (do
      let s ← asOptStr (getTokenAt ts 7)
      let n ← asOptNat s
      pure (n, 8))
  else some (none, 7)

lemma getTokenAt_list_mem {ts : List NTok} {i : Nat} {pdq : Bool} {l : List NTok}
    (h : getTokenAt ts i pdq = some (NTok.list l)) : NTok.list l ∈ ts := by
  unfold getTokenAt at h
  cases hts : ts[i]? with
  | none => rw [hts] at h; exact absurd h (by simp)
  | some t =>
    rw [hts] at h
    cases t with
    | str s =>
      exfalso
      simp only [getToken] at h
      cases getTokenStr s pdq <;> simp at h
    | list l' =>
      simp only [getToken, Option.some.injEq, NTok.list.injEq] at h
      subst h
      exact mem_of_getElemEq hts

lemma sizeOf_takeWhile_le (p : NTok → Bool) (l : List NTok) :
    sizeOf (l.takeWhile p) ≤ sizeOf l := by
  induction l with
  | nil => simp [List.takeWhile]
  | cons a l ih =>
    simp only [List.takeWhile]
    cases p a <;> simp <;> omega

mutual

/-- `_load_bodystructure_from_nested_tokens` (imap_structure.py lines
288-447).  Multipart case: the section gets a synthetic `'text'` component
when the parent is a message; sub-parts are the leading nested-list tokens,
numbered from 1, each loaded with the parent's base section (for a message
parent, `_section[:-1]` drops the appended `'text'` again); then the
trailing subtype/params/disposition/language/location fields.
Non-multipart case: positional fields; a `text` main type adds a line
count; a `message/rfc822` or `message/global` with a present envelope list
adds envelope, nested body (loaded with the full current section as a
message) and line count; when the envelope slot is `NIL` the index is not
advanced (so md5 re-reads that slot, as in the source). -/
def loadBodyAux (ts : List NTok) (sec : List SecElem) (pty : PTy) : Option Body :=
  if scanMultipart ts then
    let sect := if pty = PTy.isMessage then sec ++ [SecElem.txt] else sec
    let children := ts.takeWhile isListTok
    let rest := ts.dropWhile isListTok
    match loadSubparts children sec 1 with
    | none => none
    | some subParts =>
      match getTokenAt rest 0 with
      | some (NTok.str subType) =>
        (do
          let params ← asOptParams (getTokenAt rest 1)
          let disposition ← asOptParams (getTokenAt rest 2)
          let language := getTokenAt rest 3
          let location ← asOptStr (getTokenAt rest 4)
          pure (Body.multi sect subType subParts params disposition
            language location))
      | _ => none
  else
    let sect := if pty ≠ PTy.isMultipart then sec ++ [SecElem.num 1] else sec
    match loadLeafFields ts with
    | none => none
    | some (mainType, subType, params, id, description, encoding, size) =>
      match loadTextLines ts mainType with
      | none => none
      | some (lines1, i1) =>
        if mainType = some "message" ∧
            (subType = some "rfc822" ∨ subType = some "global") then
          match henv : getTokenAt ts i1 with
          | some (NTok.list envToks) =>
            (do
              let envelope ← loadEnvelopeFromNested envToks
              match hbody : getTokenAt ts (i1 + 1) with
              | some (NTok.list bodyToks) =>
                (do
                  let envBody ← loadBodyAux bodyToks sect PTy.isMessage
                  let s ← asOptStr (getTokenAt ts (i1 + 2))
                  let lines ← asOptNat s
                  loadNonMultiTail ts (i1 + 3) sect mainType subType params
                    id description encoding size (some envelope) (some envBody)
                    lines)
              | _ => none)
          | some (NTok.str _) => none
          | none =>
            loadNonMultiTail ts i1 sect mainType subType params id
              description encoding size none none lines1
        else
          loadNonMultiTail ts i1 sect mainType subType params id
            description encoding size none none lines1
termination_by (sizeOf ts, 1)
decreasing_by
· have h1 : sizeOf (List.takeWhile isListTok ts) ≤ sizeOf ts :=
    sizeOf_takeWhile_le _ _
  rcases Nat.lt_or_ge (sizeOf (List.takeWhile isListTok ts)) (sizeOf ts) with h | h
  · exact Prod.Lex.left _ _ h
  · have h2 : sizeOf (List.takeWhile isListTok ts) = sizeOf ts :=
      Nat.le_antisymm h1 h
    rw [h2]
    exact Prod.Lex.right _ (by omega)
· have hm : NTok.list bodyToks ∈ ts := getTokenAt_list_mem hbody
  have h1 : sizeOf (NTok.list bodyToks) < sizeOf ts := List.sizeOf_lt_of_mem hm
  have h2 : sizeOf bodyToks < sizeOf ts := by
    simp only [NTok.list.sizeOf_spec] at h1
    omega
  exact Prod.Lex.left _ _ h2

/-- The sub-part collection loop of the multipart branch (imap_structure.py
lines 312-328): the `k`-th nested-list child is loaded with section
`base ++ [k]` and parent type `_IS_MULTIPART`. -/
def loadSubparts (cs : List NTok) (base : List SecElem) (k : Nat) :
    Option (List Body) :=
  match cs with
  | [] => some []
  | NTok.list l :: rest =>
    (do
      let b ← loadBodyAux l (base ++ [SecElem.num k]) PTy.isMultipart
      let bs ← loadSubparts rest base (k + 1)
      pure (b :: bs))
  | NTok.str _ :: _ => some []
termination_by (sizeOf cs, 0)
decreasing_by
· have h2 : sizeOf l < sizeOf (NTok.list l :: rest) := by
    simp only [List.cons.sizeOf_spec, NTok.list.sizeOf_spec]
    omega
  exact Prod.Lex.left _ _ h2
· have h2 : sizeOf rest < sizeOf (NTok.list l :: rest) := by
    simp only [List.cons.sizeOf_spec, NTok.list.sizeOf_spec]
    omega
  exact Prod.Lex.left _ _ h2

end

/-- `load_bodystructure` (imap_structure.py lines 526-543): tokenize
(stripping the `(BODYSTRUCTURE ...)` identifier), nest, and interpret with
an empty section under a message parent. -/
def load_bodystructure (text : List Char) : Option Body :=
  loadBodyAux (nest_tokens (tokenize text)) [] PTy.isMessage

/-- `load_envelope` (imap_structure.py lines 546-556). -/
def load_envelope (text : List Char) : Option Envelope :=
  loadEnvelopeFromNested (nest_tokens (tokenize text))

/-! ## search_urls message-identity check (mailcore/mail.py) -/

/-- `IssueLevel` (widgets/issue_viewer.py lines 26-29). -/
inductive IssueLevel
  | ERROR
  | WARNING
  | INFO
  deriving DecidableEq, Repr

/-- `_is_msg_same` (mail.py lines 86-94): both message ids must be present
and equal. -/
def _is_msg_same (source_envelope new_envelope : Envelope) : Bool :=
  match source_envelope.message_id, new_envelope.message_id with
  | some a, some b => a == b
  | _, _ => false

/-- The slice of a `URLTask` relevant to the identity check (the stored
envelope from the previous phase, plus the fields the error would carry). -/
structure URLTaskModel where
  msg_num : String
  envelope : Envelope
  retries : Nat

/-- Outcome of the identity check in the `search_urls` handler. -/
inductive MsgCheckOutcome
  | proceed (task : URLTaskModel) (envelope : Envelope)
  | failed (task : URLTaskModel) (kind : ErrorTypes) (level : IssueLevel)

/-- The identity-check step of the `search_urls` handler (mail.py lines
452-459): when `_is_msg_same(task.envelope, envelope)` fails, return a
`MailError` with kind `UNMATCHED_MSG_ID` at `ERROR` severity, the task
untouched; otherwise continue with the re-fetched envelope. -/
def searchUrlsMsgCheck (task : URLTaskModel) (envelope : Envelope) :
    MsgCheckOutcome :=
  if _is_msg_same task.envelope envelope then
    MsgCheckOutcome.proceed task envelope
  else
    MsgCheckOutcome.failed task ErrorTypes.UNMATCHED_MSG_ID IssueLevel.ERROR

/-! ## Orchestrator duplicate suppression (screens/main_screen.py) -/

/-- Python `dict` assignment `d[k] = v`: an existing key keeps its position
with the new value, a new key is appended. -/
def pyDictSet {κ ν : Type} [DecidableEq κ] (d : List (κ × ν)) (k : κ) (v : ν) :
    List (κ × ν) :=
  if d.any (fun p => p.1 = k) then
    d.map (fun p => if p.1 = k then (k, v) else p)
  else d ++ [(k, v)]

/-- The `Attachments` aggregate (mail.py lines 41-52), restricted to the
fields the normal-attachment branch reads. -/
structure Attachments where
  envelope : Envelope
  normal_attachments : List Body
  html_parts : List Body

/-- A `SEARCHING_NORMAL_ATTACHMENTS` result event: the task's key fields
and the `Attachments` payload. -/
structure NormalAttachmentResult where
  account : String
  mailbox : String
  msg_num : String
  res : Attachments

/-- The `SearchPart` state touched by the normal-attachment branch of
`result_ocurred` (main_screen.py).  `msg_ids` is a Python `set`, modelled
as a duplicate-free insertion-ordered list. -/
structure SearchPartState where
  analyzed_msg_count : Nat
  normal_attachment_count : Nat
  html_part_count : Nat
  attachment_dict : List ((String × String × String) × Option Attachments)
  msg_ids : List String

/-- The `SEARCHING_NORMAL_ATTACHMENTS` branch of `SearchPart.result_ocurred`
(main_screen.py lines 236-257): bump `analyzed_msg_count`; require the
envelope's `message_id` (asserted non-`None`); when the id was not seen
before, store the payload under the `(account, mailbox, msg_num)` key and
add the attachment/html-part counts; finally add the id to `msg_ids`
(adding an already-present id to a set changes nothing). -/
def searchPartNormalStep (s : SearchPartState) (e : NormalAttachmentResult) :
    Option SearchPartState :=
  match e.res.envelope.message_id with
  | none => none
  | some msgId =>
    if s.msg_ids.contains msgId then
      some { s with analyzed_msg_count := s.analyzed_msg_count + 1 }
    else
      some { s with
        analyzed_msg_count := s.analyzed_msg_count + 1
        attachment_dict := pyDictSet s.attachment_dict
          (e.account, e.mailbox, e.msg_num) (some e.res)
        normal_attachment_count :=
          s.normal_attachment_count + e.res.normal_attachments.length
        html_part_count := s.html_part_count + e.res.html_parts.length
        msg_ids := s.msg_ids ++ [msgId] }

/-! ## Provider-handler registry (mailcore/crawler.py) -/

/-- The named result of `urllib.parse.urlparse`, restricted to the
components the registry consults. -/
structure UrlParts where
  netloc : String
  path : String
  query : String
  fragment : String
  deriving DecidableEq, Repr

def isSchemeChar (c : Char) : Bool :=
  c.isAlphanum || c = '+' || c = '-' || c = '.'

/-- Split off a `scheme:` prefix as `urllib.parse.urlsplit` does: the part
before the first `:` counts as a scheme when it is non-empty, starts with
a letter and consists of scheme characters. -/
def splitScheme (cs : List Char) : List Char :=
  match cs.findIdx? (· = ':') with
  | some i =>
    let pre := cs.take i
    if pre ≠ [] ∧ (pre.headD ' ').isAlpha ∧ pre.all isSchemeChar then
      cs.drop (i + 1)
    else cs
  | none => cs

/-- Split off a leading `//netloc`, which extends to the first `/`, `?` or
`#`. -/
def splitNetloc (cs : List Char) : List Char × List Char :=
  match cs with
  | '/' :: '/' :: rest =>
    match rest.findIdx? (fun c => c = '/' ∨ c = '?' ∨ c = '#') with
    | some j => (rest.take j, rest.drop j)
    | none => (rest, [])
  | _ => ([], cs)

/-- Split at the first occurrence of `c` (Python `str.split(c, 1)`); the
separator is dropped. -/
def splitOnFirst (cs : List Char) (c : Char) : List Char × List Char :=
  match cs.findIdx? (· = c) with
  | some i => (cs.take i, cs.drop (i + 1))
  | none => (cs, [])

/-- Modelled from Python `urllib.parse.urlparse` for the absolute URL
shapes handled here: scheme, then `//netloc` up to `/`, `?` or `#`, then
the fragment split at the first `#`, then the query split at the first
`?`; what remains is the path. -/
def pyUrlparse (url : String) : UrlParts :=
  let cs := splitScheme url.data
  let (netloc, cs) := splitNetloc cs
  let (cs, fragment) := splitOnFirst cs '#'
  let (path, query) := splitOnFirst cs '?'
  ⟨String.mk netloc, String.mk path, String.mk query, String.mk fragment⟩

/-- Modelled from `pathlib.Path` equality on POSIX paths: two paths are
equal when they agree on absoluteness and on the list of non-empty,
non-`.` components. -/
def pathNorm (p : String) : Bool × List String :=
  ((match p.data with | '/' :: _ => true | _ => false),
   ((p.data.splitOn '/').filter (fun c => c ≠ [] ∧ c ≠ ['.'])).map String.mk)

/-- The five registered provider handlers (crawler.py lines 216-495). -/
inductive CrawlerHandler
  | handle_qq_mail1
  | handle_qq_mail2
  | handle_163_mail1
  | handle_163_mail2
  | handle_sina_mail
  deriving DecidableEq, Repr

/-- `valid_urls` (crawler.py lines 50-60), in registration order of the
`@register` decorators (lines 216, 271, 405, 431, 457); keys are
`(netloc, Path(path))` pairs. -/
def valid_urls : List ((String × (Bool × List String)) × CrawlerHandler) :=
  [(("mail.qq.com", pathNorm "/cgi-bin/ftnExs_download"),
     CrawlerHandler.handle_qq_mail1),
   (("wx.mail.qq.com", pathNorm "/ftn/download"),
     CrawlerHandler.handle_qq_mail2),
   (("dashi.163.com", pathNorm "/html/cloud-attachment-download"),
     CrawlerHandler.handle_163_mail1),
   (("mail.163.com", pathNorm "/large-attachment-download/index.html"),
     CrawlerHandler.handle_163_mail2),
   (("mail.sina.com.cn", pathNorm "/filecenter/download.php"),
     CrawlerHandler.handle_sina_mail)]

/-- `_url_path_equal` (crawler.py lines 71-78): compare the candidate URL's
parsed `(netloc, Path(path))` against a registered key. -/
def _url_path_equal (url : String) (netloc : String)
    (path : Bool × List String) : Bool :=
  ((pyUrlparse url).netloc, pathNorm (pyUrlparse url).path) == (netloc, path)

/-- `get_url_handler` (crawler.py lines 63-68): first registered key whose
`(netloc, path)` matches the URL, else no handler. -/
def get_url_handler (url : String) : Option CrawlerHandler :=
  (valid_urls.find? (fun e => _url_path_equal url e.1.1 e.1.2)).map (·.2)

/-! ## Theorems: C10, C8, C7 -/

/-- C10: the `search_urls` identity check accepts the re-fetched envelope
exactly when both the stored and the re-fetched `message_id` are present
and equal; in particular a re-fetched envelope with no `message_id` fails
with `UNMATCHED_MSG_ID` at `ERROR` severity, the task carried unchanged. -/
theorem search_urls_unmatched_msg_id (task : URLTaskModel) (env : Envelope) :
    (searchUrlsMsgCheck task env = MsgCheckOutcome.proceed task env ↔
      ∃ mid, task.envelope.message_id = some mid ∧ env.message_id = some mid) ∧
    (env.message_id = none →
      searchUrlsMsgCheck task env =
        MsgCheckOutcome.failed task ErrorTypes.UNMATCHED_MSG_ID IssueLevel.ERROR) := by
  rcases h1 : task.envelope.message_id with _ | a <;>
    rcases h2 : env.message_id with _ | b
  · simp [searchUrlsMsgCheck, _is_msg_same, h1, h2]
  · simp [searchUrlsMsgCheck, _is_msg_same, h1, h2]
  · simp [searchUrlsMsgCheck, _is_msg_same, h1, h2]
  · by_cases hab : a = b
    · subst hab
      simp [searchUrlsMsgCheck, _is_msg_same, h1, h2]
    · simp [searchUrlsMsgCheck, _is_msg_same, h1, h2, hab]
      exact fun hba => hab hba.symm

/-- Witness for C10: a task whose stored envelope has a message id, checked
against a re-fetched envelope with none. -/
theorem search_urls_unmatched_msg_id_witness :
    searchUrlsMsgCheck ⟨"1", { message_id := some "<id>" }, 0⟩ {} =
      MsgCheckOutcome.failed ⟨"1", { message_id := some "<id>" }, 0⟩
        ErrorTypes.UNMATCHED_MSG_ID IssueLevel.ERROR :=
  (search_urls_unmatched_msg_id ⟨"1", { message_id := some "<id>" }, 0⟩ {}).2 rfl

/-- C8: in the normal-attachment phase, an event whose `message_id` was
seen before changes nothing but the analyzed counter (no storing, no count
contribution); an unseen id is stored under its key and contributes its
attachment and html-part counts once; and after any successful step the
event's id is recorded and previously recorded ids persist — so of two
results with the same `message_id` (under whatever distinct keys) only the
first contributes. -/
theorem duplicate_message_suppression (s : SearchPartState)
    (e : NormalAttachmentResult) (mid : String)
    (hmid : e.res.envelope.message_id = some mid) :
    (mid ∈ s.msg_ids →
      searchPartNormalStep s e =
        some { s with analyzed_msg_count := s.analyzed_msg_count + 1 }) ∧
    (mid ∉ s.msg_ids →
      searchPartNormalStep s e = some { s with
        analyzed_msg_count := s.analyzed_msg_count + 1
        attachment_dict := pyDictSet s.attachment_dict
          (e.account, e.mailbox, e.msg_num) (some e.res)
        normal_attachment_count :=
          s.normal_attachment_count + e.res.normal_attachments.length
        html_part_count := s.html_part_count + e.res.html_parts.length
        msg_ids := s.msg_ids ++ [mid] }) ∧
    (∀ s', searchPartNormalStep s e = some s' →
      mid ∈ s'.msg_ids ∧ ∀ x ∈ s.msg_ids, x ∈ s'.msg_ids) := by
  refine ⟨?_, ?_, ?_⟩
  · intro hmem
    simp [searchPartNormalStep, hmid, List.elem_iff, hmem]
  · intro hmem
    simp [searchPartNormalStep, hmid, List.elem_iff, hmem]
  · intro s' hs'
    simp only [searchPartNormalStep, hmid] at hs'
    by_cases hmem : mid ∈ s.msg_ids
    · rw [if_pos (by simpa [List.elem_iff] using hmem)] at hs'
      injection hs' with hs'
      subst hs'
      exact ⟨hmem, fun x hx => hx⟩
    · rw [if_neg (by simpa [List.elem_iff] using hmem)] at hs'
      injection hs' with hs'
      subst hs'
      constructor
      · simp
      · intro x hx
        simp [hx]

/-- Witness for C8: a second event with the already-seen id `"m1"` leaves
every count and the attachment map unchanged. -/
theorem duplicate_message_suppression_witness :
    searchPartNormalStep ⟨3, 2, 1, [], ["m1"]⟩
        ⟨"a", "INBOX", "7", ⟨{ message_id := some "m1" }, [], []⟩⟩ =
      some ⟨4, 2, 1, [], ["m1"]⟩ :=
  (duplicate_message_suppression ⟨3, 2, 1, [], ["m1"]⟩
      ⟨"a", "INBOX", "7", ⟨{ message_id := some "m1" }, [], []⟩⟩ "m1" rfl).1
    (by simp)

/-- C7: `get_url_handler` depends only on the URL's parsed netloc and path
(query and fragment are ignored); the two example `mail.qq.com` URLs
differing only in their query map to the same handler; and a URL matching
no registered `(netloc, path)` key yields no handler. -/
theorem url_handler_netloc_path_only :
    (∀ u1 u2 : String,
      (pyUrlparse u1).netloc = (pyUrlparse u2).netloc →
      (pyUrlparse u1).path = (pyUrlparse u2).path →
      get_url_handler u1 = get_url_handler u2) ∧
    get_url_handler "https://mail.qq.com/cgi-bin/ftnExs_download?x=1" =
      get_url_handler "https://mail.qq.com/cgi-bin/ftnExs_download?x=2" ∧
    get_url_handler "https://mail.qq.com/cgi-bin/ftnExs_download?x=1" =
      some CrawlerHandler.handle_qq_mail1 ∧
    (∀ url : String,
      (∀ e ∈ valid_urls,
        ((pyUrlparse url).netloc, pathNorm (pyUrlparse url).path) ≠ e.1) →
      get_url_handler url = none) := by
  refine ⟨?_, by decide, by decide, ?_⟩
  · intro u1 u2 h1 h2
    unfold get_url_handler _url_path_equal
    rw [h1, h2]
  · intro url h
    unfold get_url_handler
    rw [List.find?_eq_none.mpr]
    · rfl
    · intro e he
      have := h e he
      simp only [_url_path_equal, beq_iff_eq]
      exact this

/-- Witness for C7: the purity part applied to the two example URLs, and
the no-match part applied to an unregistered URL. -/
theorem url_handler_netloc_path_only_witness :
    get_url_handler "https://mail.qq.com/cgi-bin/ftnExs_download?x=1" =
      get_url_handler "https://mail.qq.com/cgi-bin/ftnExs_download?x=2#frag" ∧
    get_url_handler "https://example.com/x" = none :=
  ⟨url_handler_netloc_path_only.1
      "https://mail.qq.com/cgi-bin/ftnExs_download?x=1"
      "https://mail.qq.com/cgi-bin/ftnExs_download?x=2#frag" (by decide) (by decide),
    url_handler_netloc_path_only.2.2.2 "https://example.com/x" (by decide)⟩

/-! ## Tokenizer lemmas (for C6 and the round-trip) -/

lemma pyReplaceChar_id (text : List Char) (h : '\n' ∉ text) :
    pyReplaceChar text '\n' ' ' = text := by
  induction text with
  | nil => rfl
  | cons c cs ih =>
    simp only [List.mem_cons, not_or] at h
    have hc : ¬c = '\n' := fun hh => h.1 hh.symm
    simp only [pyReplaceChar, List.map_cons, if_neg hc]
    exact congrArg _ (ih h.2)

lemma tokenizeAux_quoted_inner (s : List Char) :
    ∀ (buf rest : List Char), '"' ∉ s →
      tokenizeAux (s ++ '"' :: rest) true buf =
        String.mk (buf ++ s ++ ['"']) :: tokenizeAux rest false [] := by
  induction s with
  | nil =>
    intro buf rest _
    simp [tokenizeAux]
  | cons c cs ih =>
    intro buf rest h
    simp only [List.mem_cons, not_or] at h
    have hc : ¬c = '"' := fun hh => h.1 hh.symm
    have step : tokenizeAux ((c :: cs) ++ '"' :: rest) true buf =
        tokenizeAux (cs ++ '"' :: rest) true (buf ++ [c]) := by
      simp only [List.cons_append, tokenizeAux, if_neg hc]
      rfl
    rw [step, ih (buf ++ [c]) rest h.2]
    simp

lemma tokenizeAux_quoted (s : List Char) (buf rest : List Char) (h : '"' ∉ s) :
    tokenizeAux ('"' :: s ++ '"' :: rest) false buf =
      String.mk ('"' :: s ++ ['"']) :: tokenizeAux rest false [] := by
  have step : tokenizeAux ('"' :: (s ++ '"' :: rest)) false buf =
      tokenizeAux (s ++ '"' :: rest) true ['"'] := by
    simp [tokenizeAux]
  rw [List.cons_append, step, tokenizeAux_quoted_inner s ['"'] rest h]
  simp

/-- C6: `tokenize` captures the content between double quotes as a single
token with the quote characters preserved; in the interpretation pass an
unquoted token equal to `NIL` case-insensitively becomes absence, while the
quoted token `"NIL"` remains a string value (case-folded to `"nil"` in
folded positions, untouched otherwise) and never becomes absence. -/
theorem tokenizer_quoting_and_nil :
    (∀ s rest : List Char, '"' ∉ s → '\n' ∉ s → '\n' ∉ rest →
      tokenize ('"' :: s ++ '"' :: rest) false =
        String.mk ('"' :: s ++ ['"']) :: tokenizeAux rest false []) ∧
    (∀ (s : String) (pdq : Bool), hasQuote s = false →
      (getTokenStr s pdq = none ↔ pyLower s = "nil")) ∧
    getTokenStr "\"NIL\"" true = some "nil" ∧
    getTokenStr "\"NIL\"" false = some "NIL" := by
  refine ⟨?_, ?_, by decide, by decide⟩
  · intro s rest h1 h2 h3
    have hnl : '\n' ∉ '"' :: s ++ '"' :: rest := by
      intro hmem
      rcases List.mem_cons.mp hmem with hh | hmem
      · exact absurd hh (by decide)
      rcases List.mem_append.mp hmem with hh | hmem
      · exact h2 hh
      rcases List.mem_cons.mp hmem with hh | hh
      · exact absurd hh (by decide)
      · exact h3 hh
    show tokenizeAux
      (pyReplaceChar ('"' :: s ++ '"' :: rest) '\n' ' ') false [] = _
    rw [pyReplaceChar_id _ hnl]
    exact tokenizeAux_quoted s [] rest h1
  · intro s pdq h
    unfold getTokenStr
    rw [h]
    simp only [if_true]
    by_cases hn : pyLower s = "nil"
    · simp [hn]
    · simp [hn]

/-- Witness for C6: the quoted token `"NIL"` is tokenized whole with its
quotes, and the unquoted atom `NIL` is interpreted as absence. -/
theorem tokenizer_quoting_and_nil_witness :
    tokenize "\"NIL\"".data false = ["\"NIL\""] ∧
    getTokenStr "NIL" true = none :=
  ⟨tokenizer_quoting_and_nil.1 ['N', 'I', 'L'] [] (by decide) (by decide)
      (by decide),
    (tokenizer_quoting_and_nil.2.1 "NIL" true rfl).mpr rfl⟩

/-! ## C9: quoted `unknown` -/

/-- C9: in a case-folded token position a quoted string is converted to
absence exactly when its unquoted content case-folds to `unknown`; in a
position read without folding a quoted string is kept verbatim (quotes
stripped).  The body-structure loader reads its string positions with
folding — a quoted `"UNKNOWN"` main type comes back absent — while the
envelope loader reads date/subject (and the other raw positions) without
folding, keeping `"unknown"` as a value. -/
theorem quoted_unknown_is_absence :
    (∀ s : String, hasQuote s = true →
      (getTokenStr s true = none ↔ pyLower (removeQuotes s) = "unknown")) ∧
    (∀ s : String, hasQuote s = true →
      getTokenStr s false = some (removeQuotes s)) ∧
    loadBodyAux [NTok.str "\"UNKNOWN\"", NTok.str "\"plain\"", NTok.str "NIL",
        NTok.str "NIL", NTok.str "NIL", NTok.str "\"base64\"", NTok.str "7"]
        [] PTy.isMessage =
      some (Body.nonMulti [SecElem.num 1] none (some "plain") none none none
        (some "base64") (some 7) none none none none none none none) ∧
    loadEnvelopeFromNested [NTok.str "\"unknown\"", NTok.str "\"unknown\""] =
      some { date := some "unknown", subject := some "unknown" } := by
  refine ⟨?_, ?_, ?_, by rfl⟩
  · intro s h
    unfold getTokenStr
    rw [h]
    simp only [Bool.true_eq_false, if_false, if_true]
    by_cases hn : pyLower (removeQuotes s) = "unknown"
    · simp [hn]
    · simp [hn]
  · intro s h
    unfold getTokenStr
    rw [h]
    simp
  · unfold loadBodyAux
    rfl

/-- Witness for C9: the folded interpretation of the quoted token
`"UNKNOWN"` is absence; the unfolded interpretation keeps the string. -/
theorem quoted_unknown_is_absence_witness :
    getTokenStr "\"UNKNOWN\"" true = none ∧
    getTokenStr "\"UNKNOWN\"" false = some "UNKNOWN" :=
  ⟨(quoted_unknown_is_absence.1 "\"UNKNOWN\"" rfl).mpr rfl,
    quoted_unknown_is_absence.2.1 "\"UNKNOWN\"" rfl⟩

/-! ## C5: the multipart-detection scan does not stop at nested lists -/

/-- A leaf part token list — `("text" "plain" ("charset" "utf-8") NIL
"mixed" "base64" 100 10)`, a text/plain part whose description field is the
string `"mixed"` — in which the only multipart keyword appears after the
nested parameter list. -/
def c5Tokens : List NTok :=
  [NTok.str "\"text\"", NTok.str "\"plain\"",
   NTok.list [NTok.str "\"charset\"", NTok.str "\"utf-8\""],
   NTok.str "NIL", NTok.str "\"mixed\"", NTok.str "\"base64\"",
   NTok.str "100", NTok.str "10"]

/-- Counterexample to C5 as stated: the scan classifies this part as
multipart even though no multipart keyword occurs before the first nested
list (scanning only the pre-list prefix finds none). -/
theorem multipart_scan_prefix_counterexample :
    scanMultipart c5Tokens = true ∧
    scanMultipart (c5Tokens.takeWhile (fun t => !isListTok t)) = false := by
  decide

def isMultiB : Body → Bool
  | Body.multi _ _ _ _ _ _ _ => true
  | Body.nonMulti _ _ _ _ _ _ _ _ _ _ _ _ _ _ _ => false

lemma loadNonMultiTail_nonMulti {ts i sect mainType subType params id
    description encoding size env envBody lines b}
    (h : loadNonMultiTail ts i sect mainType subType params id description
      encoding size env envBody lines = some b) : isMultiB b = false := by
  simp only [loadNonMultiTail, Option.bind_eq_bind, Option.pure_def,
    Option.bind_eq_some, Option.some.injEq] at h
  obtain ⟨md5S, _, md5, _, disp, _, loc, _, hb⟩ := h
  subst hb
  rfl

/-- C5 amended: the multipart-detection scan inspects every immediate
string token of the part, before and after nested lists alike; the part is
classified multipart exactly when some immediate string token interprets to
a known multipart subtype keyword, and the loader builds a `MultiPart`
exactly when that scan succeeds. -/
theorem multipart_scan_all_tokens :
    (∀ ts : List NTok, scanMultipart ts = true ↔
      ∃ s s', NTok.str s ∈ ts ∧ getTokenStr s true = some s' ∧
        s' ∈ MULTIPART_SUBTYPES) ∧
    (∀ ts sec pty b, loadBodyAux ts sec pty = some b →
      isMultiB b = scanMultipart ts) := by
  constructor
  · intro ts
    simp only [scanMultipart, List.any_eq_true]
    constructor
    · rintro ⟨t, ht, hp⟩
      cases t with
      | str s =>
        dsimp only at hp
        cases hg : getTokenStr s true with
        | none => rw [hg] at hp; exact absurd hp (by simp)
        | some s' =>
          rw [hg] at hp
          dsimp only at hp
          exact ⟨s, s', ht, hg, List.elem_iff.mp hp⟩
      | list l => exact absurd hp (by simp)
    · rintro ⟨s, s', hmem, hg, hsub⟩
      refine ⟨NTok.str s, hmem, ?_⟩
      dsimp only
      rw [hg]
      exact List.elem_iff.mpr hsub
  · intro ts sec pty b h
    unfold loadBodyAux at h
    by_cases hscan : scanMultipart ts = true
    · rw [if_pos hscan] at h
      dsimp only at h
      rw [hscan]
      rcases h1 : loadSubparts (ts.takeWhile isListTok) sec 1 with _ | subParts <;>
        rw [h1] at h
      · exact absurd h (by simp)
      rcases h2 : getTokenAt (ts.dropWhile isListTok) 0 with _ | t <;> rw [h2] at h
      · exact absurd h (by simp)
      cases t with
      | list l => exact absurd h (by simp)
      | str subType =>
        simp only [Option.bind_eq_bind, Option.pure_def, Option.bind_eq_some,
          Option.some.injEq] at h
        obtain ⟨p, _, d, _, loc, _, hb⟩ := h
        subst hb
        rfl
    · rw [if_neg hscan] at h
      dsimp only at h
      rw [Bool.not_eq_true] at hscan
      rw [hscan]
      rcases h1 : loadLeafFields ts with _ | seven <;> rw [h1] at h
      · exact absurd h (by simp)
      obtain ⟨mainType, subType, params, id, description, encoding, size⟩ := seven
      dsimp only at h
      rcases h2 : loadTextLines ts mainType with _ | li <;> rw [h2] at h
      · exact absurd h (by simp)
      obtain ⟨lines1, i1⟩ := li
      dsimp only at h
      by_cases hmsg : mainType = some "message" ∧
          (subType = some "rfc822" ∨ subType = some "global")
      · rw [if_pos hmsg] at h
        split at h
        · simp only [Option.bind_eq_bind, Option.bind_eq_some] at h
          obtain ⟨envelope, _, h⟩ := h
          split at h
          · simp only [Option.bind_eq_bind, Option.bind_eq_some] at h
            obtain ⟨envBody, _, s7, _, lines, _, h⟩ := h
            exact loadNonMultiTail_nonMulti h
          · exact absurd h (by simp)
        · exact absurd h (by simp)
        · exact loadNonMultiTail_nonMulti h
      · rw [if_neg hmsg] at h
        exact loadNonMultiTail_nonMulti h

/-- Witness for C5's amended claim: applied to a singleton token list whose
one string token interprets to the keyword `mixed`. -/
theorem multipart_scan_all_tokens_witness :
    ∃ s s', NTok.str s ∈ [NTok.str "\"mixed\""] ∧
      getTokenStr s true = some s' ∧ s' ∈ MULTIPART_SUBTYPES :=
  (multipart_scan_all_tokens.1 [NTok.str "\"mixed\""]).mp (by decide)

/-! ## C3: the IMAP dispatcher delivers exactly one terminal event per seed
(mailcore/mail.py lines 158-299)

`launch_imap_tasks` seeds a task queue, workers (`dispatch_tasks`) pull a
task, increment its retries, attempt it and put exactly one outcome on the
result queue (every failure path in the worker — connect, login, id,
select, handler exception, handler error — puts exactly one result); the
outer loop consumes results, requeueing per the retry policy or posting a
terminal event and counting it, until the count reaches the seed count.
The model uses one transition per scheduler-visible step; a seed is a
natural-number identifier. -/

/-- A task in flight through the dispatcher: its seed and retries counter. -/
structure DTask where
  seed : Nat
  retries : Nat
  deriving DecidableEq, Repr

/-- The dispatcher's shared state: the task queue, the tasks currently
being attempted by workers, the result queue, the terminal events posted to
the observer, and `result_count`. -/
structure DispState where
  queue : List DTask
  inflight : List DTask
  results : List (DTask × Outcome)
  posted : List (Nat × Outcome)
  resultCount : Nat
  deriving Repr

/-- One scheduler step: a worker picks the queue head and increments its
retries (mail.py lines 243-248); a worker finishes an attempt with some
outcome, putting exactly one result (lines 249-299); the outer loop
consumes the result-queue head and either requeues (line 200) or posts one
terminal event and counts it (lines 201-210). -/
inductive DStep (maxRetries : Nat) : DispState → DispState → Prop
  | pick (t : DTask) (rest : List DTask) (s : DispState)
      (hq : s.queue = t :: rest) :
      DStep maxRetries s ({ s with
        queue := rest
        inflight := s.inflight ++ [{ t with retries := t.retries + 1 }] })
  | finish (pre post : List DTask) (t : DTask) (o : Outcome) (s : DispState)
      (hin : s.inflight = pre ++ t :: post) :
      DStep maxRetries s ({ s with
        inflight := pre ++ post
        results := s.results ++ [(t, o)] })
  | consume_requeue (t : DTask) (o : Outcome) (rest : List (DTask × Outcome))
      (s : DispState) (hr : s.results = (t, o) :: rest)
      (hreq : attemptRequeued maxRetries o t.retries = true) :
      DStep maxRetries s ({ s with
        results := rest
        queue := s.queue ++ [t] })
  | consume_post (t : DTask) (o : Outcome) (rest : List (DTask × Outcome))
      (s : DispState) (hr : s.results = (t, o) :: rest)
      (hreq : attemptRequeued maxRetries o t.retries = false) :
      DStep maxRetries s ({ s with
        results := rest
        posted := s.posted ++ [(t.seed, o)]
        resultCount := s.resultCount + 1 })

/-- The initial state built by `launch_imap_tasks` (lines 168-176): one
fresh task per seed, retries 0, nothing attempted or posted. -/
def initState (seeds : List Nat) : DispState :=
  ⟨seeds.map (fun sid => ⟨sid, 0⟩), [], [], [], 0⟩

inductive DReach (maxRetries : Nat) (seeds : List Nat) : DispState → Prop
  | init : DReach maxRetries seeds (initState seeds)
  | step {a b : DispState} : DReach maxRetries seeds a →
      DStep maxRetries a b → DReach maxRetries seeds b

/-- How many times seed `x` occurs across the whole system (queue,
in-flight attempts, result queue, posted events). -/
def sidCount (x : Nat) (s : DispState) : Nat :=
  (s.queue.map DTask.seed).count x + (s.inflight.map DTask.seed).count x +
  (s.results.map (fun r => r.1.seed)).count x + (s.posted.map Prod.fst).count x

/-- The dispatcher invariant: seed occurrences are conserved, the posted
count equals `result_count`, total population equals the seed count, and
queued tasks never exceed the retry bound. -/
def dInv (maxRetries : Nat) (seeds : List Nat) (s : DispState) : Prop :=
  (∀ x, sidCount x s = seeds.count x) ∧
  s.resultCount = s.posted.length ∧
  s.queue.length + s.inflight.length + s.results.length + s.posted.length =
    seeds.length ∧
  (∀ t ∈ s.queue, t.retries ≤ maxRetries)

def taskWeight (maxRetries r : Nat) : Nat := maxRetries + 1 - r

/-- A termination measure: strictly decreases on every dispatcher step. -/
def dMeasure (maxRetries : Nat) (s : DispState) : Nat :=
  (s.queue.map (fun t => 3 * taskWeight maxRetries t.retries)).sum +
  (s.inflight.map (fun t => 3 * taskWeight maxRetries t.retries + 2)).sum +
  (s.results.map (fun r => 3 * taskWeight maxRetries r.1.retries + 1)).sum

lemma attemptRequeued_true_lt {maxRetries : Nat} {o : Outcome} {r : Nat}
    (h : attemptRequeued maxRetries o r = true) : r < maxRetries := by
  cases o with
  | success => simp [attemptRequeued] at h
  | failure k =>
    simp only [attemptRequeued, requeueDecision, Bool.and_eq_true,
      decide_eq_true_eq] at h
    exact h.2

lemma dInv_init (maxRetries : Nat) (seeds : List Nat) :
    dInv maxRetries seeds (initState seeds) := by
  refine ⟨fun x => ?_, rfl, ?_, ?_⟩
  · simp only [sidCount, initState, List.map_map, List.map_nil,
      List.count_nil]
    have hid : (DTask.seed ∘ fun sid => ({ seed := sid, retries := 0 } : DTask)) =
        fun sid => sid := rfl
    rw [hid]
    simp
  · simp [initState]
  · intro t ht
    simp only [initState, List.mem_map] at ht
    obtain ⟨sid, _, hs⟩ := ht
    subst hs
    exact Nat.zero_le _

lemma dInv_step {maxRetries : Nat} {seeds : List Nat} {a b : DispState}
    (hstep : DStep maxRetries a b) (hinv : dInv maxRetries seeds a) :
    dInv maxRetries seeds b := by
  obtain ⟨hc, hrc, hlen, hq⟩ := hinv
  cases hstep with
  | pick t rest s hqe =>
    refine ⟨fun x => ?_, hrc, ?_, ?_⟩
    · have := hc x
      simp only [sidCount, hqe, List.map_cons, List.map_append, List.map_nil,
        List.count_cons, List.count_append, List.count_nil] at this ⊢
      omega
    · have := hlen
      simp only [hqe, List.length_cons, List.length_append,
        List.length_nil] at this ⊢
      omega
    · intro u hu
      exact hq u (hqe ▸ List.mem_cons_of_mem _ hu)
  | finish pre post t o s hin =>
    refine ⟨fun x => ?_, hrc, ?_, hq⟩
    · have := hc x
      simp only [sidCount, hin, List.map_cons, List.map_append, List.map_nil,
        List.count_cons, List.count_append, List.count_nil] at this ⊢
      omega
    · have := hlen
      simp only [hin, List.length_cons, List.length_append,
        List.length_nil] at this ⊢
      omega
  | consume_requeue t o rest s hr hreq =>
    refine ⟨fun x => ?_, hrc, ?_, ?_⟩
    · have := hc x
      simp only [sidCount, hr, List.map_cons, List.map_append, List.map_nil,
        List.count_cons, List.count_append, List.count_nil] at this ⊢
      omega
    · have := hlen
      simp only [hr, List.length_cons, List.length_append,
        List.length_nil] at this ⊢
      omega
    · intro u hu
      rcases List.mem_append.mp hu with hu | hu
      · exact hq u hu
      · rcases List.mem_singleton.mp hu with rfl
        exact Nat.le_of_lt (attemptRequeued_true_lt hreq)
  | consume_post t o rest s hr hreq =>
    refine ⟨fun x => ?_, ?_, ?_, hq⟩
    · have := hc x
      simp only [sidCount, hr, List.map_cons, List.map_append, List.map_nil,
        List.count_cons, List.count_append, List.count_nil] at this ⊢
      omega
    · simp only [List.length_append, List.length_cons, List.length_nil]
      omega
    · have := hlen
      simp only [hr, List.length_cons, List.length_append,
        List.length_nil] at this ⊢
      omega

lemma dInv_reach {maxRetries : Nat} {seeds : List Nat} {s : DispState}
    (h : DReach maxRetries seeds s) : dInv maxRetries seeds s := by
  induction h with
  | init => exact dInv_init maxRetries seeds
  | step _ hstep ih => exact dInv_step hstep ih

lemma dMeasure_step {maxRetries : Nat} {seeds : List Nat} {a b : DispState}
    (hstep : DStep maxRetries a b) (hinv : dInv maxRetries seeds a) :
    dMeasure maxRetries b < dMeasure maxRetries a := by
  obtain ⟨_, _, _, hq⟩ := hinv
  cases hstep with
  | pick t rest s hqe =>
    have hb : t.retries ≤ maxRetries := hq t (hqe ▸ List.mem_cons_self t rest)
    simp only [dMeasure, hqe, List.map_cons, List.map_append, List.map_nil,
      List.sum_cons, List.sum_append, List.sum_nil, taskWeight]
    omega
  | finish pre post t o s hin =>
    simp only [dMeasure, hin, List.map_cons, List.map_append, List.map_nil,
      List.sum_cons, List.sum_append, List.sum_nil]
    omega
  | consume_requeue t o rest s hr hreq =>
    simp only [dMeasure, hr, List.map_cons, List.map_append, List.map_nil,
      List.sum_cons, List.sum_append, List.sum_nil]
    omega
  | consume_post t o rest s hr hreq =>
    simp only [dMeasure, hr, List.map_cons, List.map_append, List.map_nil,
      List.sum_cons, List.sum_append, List.sum_nil]
    omega

/-- C3: in every reachable dispatcher state, no seed has more than its
multiplicity of terminal events posted; once `result_count` reaches the
seed count (the loop's exit condition) the posted events are exactly one
per seed (a permutation of the seeds); a state allows no further step
exactly when queue, in-flight set and result queue are all empty — and
such a final state has delivered exactly one terminal event per seed; and
every step strictly decreases a natural measure, so every execution
reaches such a final state. -/
theorem imap_dispatcher_exactly_once (maxRetries : Nat) (seeds : List Nat)
    (s : DispState) (h : DReach maxRetries seeds s) :
    (∀ x, (s.posted.map Prod.fst).count x ≤ seeds.count x) ∧
    (s.resultCount = seeds.length → (s.posted.map Prod.fst).Perm seeds) ∧
    ((¬∃ s', DStep maxRetries s s') ↔
      (s.queue = [] ∧ s.inflight = [] ∧ s.results = [])) ∧
    ((s.queue = [] ∧ s.inflight = [] ∧ s.results = []) →
      (s.posted.map Prod.fst).Perm seeds) ∧
    (∀ s', DStep maxRetries s s' →
      dMeasure maxRetries s' < dMeasure maxRetries s) := by
  have hinv := dInv_reach h
  obtain ⟨hc, hrc, hlen, hqb⟩ := hinv
  have hperm_of_empty : (s.queue = [] ∧ s.inflight = [] ∧ s.results = []) →
      (s.posted.map Prod.fst).Perm seeds := by
    rintro ⟨h1, h2, h3⟩
    refine List.perm_iff_count.mpr (fun x => ?_)
    have := hc x
    simp only [sidCount, h1, h2, h3, List.map_nil, List.count_nil] at this
    omega
  refine ⟨fun x => ?_, ?_, ?_, hperm_of_empty, ?_⟩
  · have := hc x
    simp only [sidCount] at this
    omega
  · intro hdone
    apply hperm_of_empty
    have hplen : s.posted.length = seeds.length := by omega
    exact ⟨List.length_eq_zero.mp (by omega), List.length_eq_zero.mp (by omega),
      List.length_eq_zero.mp (by omega)⟩
  · constructor
    · intro hn
      refine ⟨?_, ?_, ?_⟩
      · cases hqe : s.queue with
        | nil => rfl
        | cons t rest => exact absurd ⟨_, DStep.pick t rest s hqe⟩ hn
      · cases hin : s.inflight with
        | nil => rfl
        | cons t rest =>
          exact absurd ⟨_, DStep.finish [] rest t Outcome.success s
            (by simpa using hin)⟩ hn
      · cases hr : s.results with
        | nil => rfl
        | cons p rest =>
          obtain ⟨t, o⟩ := p
          by_cases hreq : attemptRequeued maxRetries o t.retries = true
          · exact absurd ⟨_, DStep.consume_requeue t o rest s hr hreq⟩ hn
          · exact absurd ⟨_, DStep.consume_post t o rest s hr
              (Bool.not_eq_true _ ▸ hreq)⟩ hn
    · rintro ⟨h1, h2, h3⟩ ⟨s', hs⟩
      cases hs with
      | pick t rest s hqe => rw [h1] at hqe; exact absurd hqe (by simp)
      | finish pre post t o s hin => rw [h2] at hin; exact absurd hin (by simp)
      | consume_requeue t o rest s hr hreq =>
        rw [h3] at hr; exact absurd hr (by simp)
      | consume_post t o rest s hr hreq =>
        rw [h3] at hr; exact absurd hr (by simp)
  · intro s' hs'
    exact dMeasure_step hs' ⟨hc, hrc, hlen, hqb⟩

/-- Witness for C3: a one-seed run — pick, a successful attempt, then the
terminal post — reaches the exit condition having posted exactly the one
seed. -/
theorem imap_dispatcher_exactly_once_witness :
    ((DispState.posted ⟨[], [], [], [(0, Outcome.success)], 1⟩).map
      Prod.fst).Perm [0] :=
  (imap_dispatcher_exactly_once 2 [0] ⟨[], [], [], [(0, Outcome.success)], 1⟩
    (DReach.step (DReach.step (DReach.step DReach.init
      (DStep.pick ⟨0, 0⟩ [] (initState [0]) rfl))
      (DStep.finish [] [] ⟨0, 1⟩ Outcome.success _ rfl))
      (DStep.consume_post ⟨0, 1⟩ Outcome.success [] _ rfl rfl))).2.1 rfl

/-! ## C4: round-trip of a reference encoder through the parser

The reference encoder below serialises an `Envelope` or `Body` tree into
the IMAP textual form consumed by `load_envelope`/`load_bodystructure`:
strings are emitted as quoted tokens, absence as the atom `NIL`, numbers as
decimal atoms, children and parameter lists as parenthesized lists.  A
well-formedness predicate captures exactly the trees the textual form can
represent (no quotes or newlines inside strings, case-folded fields already
folded and not `unknown`, no stray multipart keyword in a leaf's string
fields, canonical section numbering, distinct parameter keys). -/

/-- A character that can appear in an unquoted atom. -/
def atomChar (c : Char) : Bool :=
  !(c == '(' || c == ')' || c == ' ' || c == '"' || c == '\n')

/-- Decimal rendering used by the reference encoder. -/
def natToString (n : Nat) : String :=
  if n = 0 then "0"
  else String.mk (((Nat.digits 10 n).map Nat.digitChar).reverse)

lemma digitChar_spec (d : Nat) (h : d < 10) :
    (Nat.digitChar d).isDigit = true ∧
    (Nat.digitChar d).toLower = Nat.digitChar d ∧
    (Nat.digitChar d).toNat - 48 = d ∧
    atomChar (Nat.digitChar d) = true := by
  interval_cases d <;> exact ⟨by decide, by decide, by decide, by decide⟩

lemma natToString_chars (n : Nat) :
    ∀ c ∈ (natToString n).data, c.isDigit = true ∧ c.toLower = c ∧
      atomChar c = true := by
  intro c hc
  unfold natToString at hc
  by_cases h0 : n = 0
  · rw [if_pos h0] at hc
    rcases List.mem_singleton.mp hc with rfl
    exact ⟨by decide, by decide, by decide⟩
  · rw [if_neg h0] at hc
    simp only [String.mk, List.mem_reverse, List.mem_map] at hc
    obtain ⟨d, hd, rfl⟩ := hc
    have hlt := Nat.digits_lt_base (by norm_num) hd
    obtain ⟨h1, h2, _, h4⟩ := digitChar_spec d hlt
    exact ⟨h1, h2, h4⟩

lemma strMk_data (s : String) : String.mk s.data = s := rfl

lemma map_id_of_eq {α : Type} (f : α → α) :
    ∀ (l : List α), (∀ c ∈ l, f c = c) → l.map f = l := by
  intro l hl
  induction l with
  | nil => rfl
  | cons a l ih =>
    simp only [List.map_cons]
    rw [hl a (by simp), ih (fun c hc => hl c (List.mem_cons_of_mem _ hc))]

lemma pyLower_natToString (n : Nat) : pyLower (natToString n) = natToString n := by
  show String.mk ((natToString n).data.map Char.toLower) = natToString n
  rw [map_id_of_eq _ _ (fun c hc => (natToString_chars n c hc).2.1),
    strMk_data]

lemma pyInt_natToString (n : Nat) : pyInt (natToString n) = some n := by
  by_cases h0 : n = 0
  · subst h0
    decide
  · unfold pyInt
    rw [if_pos ?pos]
    case pos =>
      constructor
      · unfold natToString
        rw [if_neg h0]
        show ((Nat.digits 10 n).map Nat.digitChar).reverse ≠ []
        simp only [ne_eq, List.reverse_eq_nil_iff, List.map_eq_nil_iff]
        exact Nat.digits_ne_nil_iff_ne_zero.mpr h0
      · exact List.all_eq_true.mpr
          (fun c hc => (natToString_chars n c hc).1)
    · congr 1
      unfold natToString
      rw [if_neg h0]
      show Nat.ofDigits 10
        ((((Nat.digits 10 n).map Nat.digitChar).reverse.map
          (fun c => c.toNat - '0'.toNat)).reverse) = n
      rw [← List.map_reverse, List.reverse_reverse, List.map_map]
      have : ((Nat.digits 10 n).map
          ((fun c => c.toNat - '0'.toNat) ∘ Nat.digitChar)) =
          Nat.digits 10 n := by
        apply map_id_of_eq
        intro d hd
        have hlt := Nat.digits_lt_base (by norm_num) hd
        exact (digitChar_spec d hlt).2.2.1
      rw [this, Nat.ofDigits_digits]

lemma natToString_hasQuote (n : Nat) : hasQuote (natToString n) = false := by
  unfold hasQuote
  by_contra hq
  rw [Bool.not_eq_false] at hq
  have hmem : '"' ∈ (natToString n).data := List.elem_iff.mp hq
  have := (natToString_chars n _ hmem).2.2
  simp [atomChar] at this

lemma natToString_ne (n : Nat) (s : String) (hs : pyInt s = none) :
    natToString n ≠ s := by
  intro he
  have := pyInt_natToString n
  rw [he, hs] at this
  exact absurd this (by simp)

/-- The digit atom is interpreted as itself (no quotes, folding is the
identity, and it is not `nil`). -/
lemma getTokenStr_natToString (n : Nat) (pdq : Bool) :
    getTokenStr (natToString n) pdq = some (natToString n) := by
  unfold getTokenStr
  rw [natToString_hasQuote n, if_pos rfl]
  simp only [pyLower_natToString]
  rw [if_neg (natToString_ne n "nil" (by decide))]

/-- Quote a string for the textual form. -/
def qstr (s : String) : String := "\"" ++ s ++ "\""

/-- A string representable inside a quoted token read without folding: no
quote, no newline. -/
def safeRawB (s : String) : Bool :=
  s.data.all (fun c => !(c == '"' || c == '\n'))

/-- A string representable in a case-folded position: additionally already
folded and not `unknown`. -/
def safeFoldB (s : String) : Bool :=
  safeRawB s && (pyLower s == s) && !(s == "unknown")

lemma qstr_data (s : String) : (qstr s).data = '"' :: s.data ++ ['"'] := by
  show ("\"" ++ s ++ "\"").data = _
  rw [String.data_append, String.data_append]
  rfl

lemma hasQuote_qstr (s : String) : hasQuote (qstr s) = true := by
  unfold hasQuote
  rw [qstr_data]
  exact List.elem_iff.mpr (by simp)

lemma safeRaw_no_quote {s : String} (h : safeRawB s = true) : '"' ∉ s.data := by
  intro hmem
  have := List.all_eq_true.mp h _ hmem
  simp at this

lemma safeRaw_no_newline {s : String} (h : safeRawB s = true) : '\n' ∉ s.data := by
  intro hmem
  have := List.all_eq_true.mp h _ hmem
  simp at this

lemma removeQuotes_qstr (s : String) (h : safeRawB s = true) :
    removeQuotes (qstr s) = s := by
  unfold removeQuotes
  rw [qstr_data]
  have hs : List.filter (fun c => decide (¬c = '"')) s.data = s.data := by
    apply List.filter_eq_self.mpr
    intro c hc
    have := List.all_eq_true.mp h _ hc
    simp only [Bool.not_eq_true', Bool.or_eq_false_iff, beq_eq_false_iff_ne,
      ne_eq] at this
    simpa using this.1
  show String.mk
    (List.filter (fun c => decide (¬c = '"')) ('"' :: (s.data ++ ['"']))) = s
  rw [List.filter_cons, List.filter_append, hs]
  simp [strMk_data]

lemma getTokenStr_qstr_fold (s : String) (h : safeFoldB s = true) :
    getTokenStr (qstr s) true = some s := by
  unfold safeFoldB at h
  simp only [Bool.and_eq_true, beq_iff_eq, Bool.not_eq_true',
    beq_eq_false_iff_ne] at h
  obtain ⟨⟨hraw, hfold⟩, hunk⟩ := h
  unfold getTokenStr
  rw [hasQuote_qstr]
  simp only [Bool.true_eq_false, if_false]
  rw [removeQuotes_qstr s hraw, hfold, if_neg hunk]
  simp

lemma getTokenStr_qstr_raw (s : String) (h : safeRawB s = true) :
    getTokenStr (qstr s) false = some s := by
  unfold getTokenStr
  rw [hasQuote_qstr]
  simp only [Bool.true_eq_false, if_false]
  rw [removeQuotes_qstr s h]
  rfl

lemma getTokenStr_NIL (pdq : Bool) : getTokenStr "NIL" pdq = none := by
  cases pdq <;> decide

/-! ### The reference encoder -/

def nilTok : NTok := NTok.str "NIL"

def optQ : Option String → NTok
  | none => nilTok
  | some s => NTok.str (qstr s)

def optNatTok : Option Nat → NTok
  | none => nilTok
  | some n => NTok.str (natToString n)

/-- Language / smtp slots hold an already-interpreted token; re-quote a
string, keep a raw nested list (the latter is excluded by
well-formedness). -/
def encTokVal : Option NTok → NTok
  | none => nilTok
  | some (NTok.str s) => NTok.str (qstr s)
  | some (NTok.list l) => NTok.list l

mutual

def encParamVal : ParamVal → NTok
  | ParamVal.str s => NTok.str (qstr s)
  | ParamVal.null => nilTok
  | ParamVal.dict d => NTok.list (encParams d)

def encParams : Params → List NTok
  | [] => []
  | (k, v) :: rest => NTok.str (qstr k) :: encParamVal v :: encParams rest

end

def encOptParams : Option Params → NTok
  | none => nilTok
  | some ps => NTok.list (encParams ps)

def encAddr (a : Address) : NTok :=
  NTok.list [optQ a.display_name, encTokVal a.smtp,
    NTok.str (qstr a.username), NTok.str (qstr a.domain)]

def encAddrList : Option (List Address) → NTok
  | none => nilTok
  | some l => NTok.list (l.map encAddr)

/-- The ten positional envelope fields in textual order. -/
def envFields (e : Envelope) : List NTok :=
  [optQ e.date, optQ e.subject, encAddrList e.from_, encAddrList e.sender,
   encAddrList e.reply_to, encAddrList e.to_, encAddrList e.cc,
   encAddrList e.bcc, optQ e.in_replay_to, optQ e.message_id]

def encodeEnvelope (e : Envelope) : NTok := NTok.list (envFields e)

mutual

/-- The field tokens of a body part, in textual order: a multipart is its
children followed by subtype/params/disposition/language/location; a leaf
is its seven leading fields, a line count when the main type is `text`,
envelope + nested body + line count when it is an embedded message, then
md5/disposition/language/location. -/
def bodyFields : Body → List NTok
  | Body.multi _ st parts params disp lang loc =>
    encBodyList parts ++
      [NTok.str (qstr st), encOptParams params, encOptParams disp,
        encTokVal lang, optQ loc]
  | Body.nonMulti _ main sub params id desc enc size env envBody lines md5
      disp lang loc =>
    [optQ main, optQ sub, encOptParams params, optQ id, optQ desc, optQ enc,
      optNatTok size] ++
    (if main = some "text" then [optNatTok lines] else []) ++
    (match env, envBody with
      | some e, some bb => [encodeEnvelope e, NTok.list (bodyFields bb),
          optNatTok lines]
      | _, _ => []) ++
    [optNatTok md5, encOptParams disp, encTokVal lang, optQ loc]

def encBodyList : List Body → List NTok
  | [] => []
  | b :: bs => NTok.list (bodyFields b) :: encBodyList bs

end

def encodeBody (b : Body) : NTok := NTok.list (bodyFields b)

/-! ### Well-formedness: the trees the textual form can represent -/

def wfOptRaw : Option String → Bool
  | none => true
  | some s => safeRawB s

def wfOptFold : Option String → Bool
  | none => true
  | some s => safeFoldB s

/-- A folded leaf field must additionally not be a multipart keyword (or
the leaf would be classified multipart). -/
def wfOptFoldNK : Option String → Bool
  | none => true
  | some s => safeFoldB s && !(MULTIPART_SUBTYPES.contains s)

def wfSmtp : Option NTok → Bool
  | none => true
  | some (NTok.str s) => safeRawB s
  | some (NTok.list _) => false

def wfLangMulti : Option NTok → Bool
  | none => true
  | some (NTok.str s) => safeFoldB s
  | some (NTok.list _) => false

def wfLangLeaf : Option NTok → Bool
  | none => true
  | some (NTok.str s) => safeFoldB s && !(MULTIPART_SUBTYPES.contains s)
  | some (NTok.list _) => false

def wfAddr (a : Address) : Bool :=
  safeRawB a.username && safeRawB a.domain && wfOptRaw a.display_name &&
    wfSmtp a.smtp

def wfAddrList : Option (List Address) → Bool
  | none => true
  | some l => l.all wfAddr

def wfEnvelope (e : Envelope) : Bool :=
  wfOptRaw e.date && wfOptRaw e.subject && wfAddrList e.from_ &&
  wfAddrList e.sender && wfAddrList e.reply_to && wfAddrList e.to_ &&
  wfAddrList e.cc && wfAddrList e.bcc && wfOptRaw e.in_replay_to &&
  wfOptRaw e.message_id

mutual

def wfParamVal : ParamVal → Bool
  | ParamVal.str s => safeRawB s
  | ParamVal.null => true
  | ParamVal.dict d => wfParams d

def wfParams : Params → Bool
  | [] => true
  | (k, v) :: rest =>
    safeFoldB k && wfParamVal v && !(rest.any (fun p => p.1 == k)) &&
      wfParams rest

end

def wfOptParams : Option Params → Bool
  | none => true
  | some ps => wfParams ps

mutual

/-- Well-formedness of a body part at context (`sec`, `pty`): the stored
section is the canonical one the parser assigns; multipart subtypes are
known keywords; leaf string fields are folded, safe and not keywords;
the embedded-message and text shapes are consistent; children are
well-formed at contiguously numbered sections from 1. -/
def wfBody (sec : List SecElem) (pty : PTy) : Body → Bool
  | Body.multi sec' st parts params disp lang loc =>
    decide (sec' = (if pty = PTy.isMessage then sec ++ [SecElem.txt] else sec)) &&
    MULTIPART_SUBTYPES.contains st &&
    wfOptParams params && wfOptParams disp && wfLangMulti lang &&
    wfOptFold loc && wfSub sec 1 parts
  | Body.nonMulti sec' main sub params id desc enc size env envBody lines md5
      disp lang loc =>
    decide (sec' = (if pty ≠ PTy.isMultipart then sec ++ [SecElem.num 1]
      else sec)) &&
    wfOptFoldNK main && wfOptFoldNK sub && wfOptParams params &&
    wfOptFoldNK id && wfOptFoldNK desc && wfOptFoldNK enc &&
    wfOptParams disp && wfLangLeaf lang && wfOptFoldNK loc &&
    (if main = some "text" then env.isNone && envBody.isNone
     else if main = some "message" ∧
         (sub = some "rfc822" ∨ sub = some "global") then
       (match env, envBody with
        | some e, some bb =>
          wfEnvelope e &&
            wfBody (if pty ≠ PTy.isMultipart then sec ++ [SecElem.num 1]
              else sec) PTy.isMessage bb
        | _, _ => false)
     else env.isNone && envBody.isNone && lines.isNone)

def wfSub (base : List SecElem) (k : Nat) : List Body → Bool
  | [] => true
  | b :: bs =>
    wfBody (base ++ [SecElem.num k]) PTy.isMultipart b && wfSub base (k + 1) bs

end

/-! ### Round-trip of the individual token forms -/

lemma wfOptFoldNK_fold {o : Option String} (h : wfOptFoldNK o = true) :
    wfOptFold o = true := by
  cases o with
  | none => rfl
  | some s =>
    simp only [wfOptFoldNK, Bool.and_eq_true] at h
    exact h.1

lemma getToken_nil (pdq : Bool) : getToken nilTok pdq = none := by
  simp [nilTok, getToken, getTokenStr_NIL]

lemma asOptStr_optQ_fold (o : Option String) (h : wfOptFold o = true) :
    asOptStr (getToken (optQ o) true) = some o := by
  cases o with
  | none => simp [optQ, getToken_nil, asOptStr]
  | some s =>
    simp only [wfOptFold] at h
    simp [optQ, getToken, getTokenStr_qstr_fold s h, asOptStr]

lemma asOptStr_optQ_raw (o : Option String) (h : wfOptRaw o = true) :
    asOptStr (getToken (optQ o) false) = some o := by
  cases o with
  | none => simp [optQ, getToken_nil, asOptStr]
  | some s =>
    simp only [wfOptRaw] at h
    simp [optQ, getToken, getTokenStr_qstr_raw s h, asOptStr]

lemma asOptStr_optNat (o : Option Nat) :
    asOptStr (getToken (optNatTok o) true) = some (o.map natToString) := by
  cases o with
  | none => simp [optNatTok, getToken_nil, asOptStr]
  | some n => simp [optNatTok, getToken, getTokenStr_natToString, asOptStr]

lemma asOptNat_map (o : Option Nat) : asOptNat (o.map natToString) = some o := by
  cases o with
  | none => rfl
  | some n => simp [asOptNat, pyInt_natToString]

lemma getToken_encTokVal_fold (t : Option NTok) (h : wfLangMulti t = true) :
    getToken (encTokVal t) true = t := by
  cases t with
  | none => simp [encTokVal, getToken_nil]
  | some tok =>
    cases tok with
    | str s =>
      simp only [wfLangMulti] at h
      simp [encTokVal, getToken, getTokenStr_qstr_fold s h]
    | list l => simp [wfLangMulti] at h

lemma wfLangLeaf_multi {t : Option NTok} (h : wfLangLeaf t = true) :
    wfLangMulti t = true := by
  cases t with
  | none => rfl
  | some tok =>
    cases tok with
    | str s =>
      simp only [wfLangLeaf, Bool.and_eq_true] at h
      simp only [wfLangMulti]
      exact h.1
    | list l => simp [wfLangLeaf] at h

lemma getToken_encTokVal_raw (t : Option NTok) (h : wfSmtp t = true) :
    getToken (encTokVal t) false = t := by
  cases t with
  | none => simp [encTokVal, getToken_nil]
  | some tok =>
    cases tok with
    | str s =>
      simp only [wfSmtp] at h
      simp [encTokVal, getToken, getTokenStr_qstr_raw s h]
    | list l => simp [wfSmtp] at h

lemma paramInsert_append (acc : Params) (k : String) (v : ParamVal)
    (h : ∀ q ∈ acc, q.1 ≠ k) : paramInsert acc k v = acc ++ [(k, v)] := by
  unfold paramInsert
  rw [if_neg]
  intro hc
  simp only [List.any_eq_true, decide_eq_true_eq] at hc
  obtain ⟨q, hq, he⟩ := hc
  exact h q hq he

lemma parsePairAux_enc :
    ∀ (n : Nat) (ps : Params) (acc : Params), sizeOf ps ≤ n →
      wfParams ps = true → (∀ q ∈ acc, q.1 ∉ ps.map Prod.fst) →
      parsePairAux (encParams ps) false acc = some (acc ++ ps) := by
  intro n
  induction n with
  | zero =>
    intro ps acc h _ _
    exfalso
    cases ps <;> simp [List.cons.sizeOf_spec] at h
  | succ n ih =>
    intro ps acc hsz hwf hdisj
    cases ps with
    | nil => simp [encParams, parsePairAux]
    | cons kv rest =>
      obtain ⟨k, v⟩ := kv
      simp only [wfParams, Bool.and_eq_true, Bool.not_eq_true',
        List.any_eq_false] at hwf
      obtain ⟨⟨⟨hk, hv⟩, hnodup⟩, hrest⟩ := hwf
      have hkacc : ∀ q ∈ acc, q.1 ≠ k := by
        intro q hq he
        exact hdisj q hq (by simp [he])
      have hins : ∀ (w : ParamVal),
          paramInsert acc k w = acc ++ [(k, w)] :=
        fun w => paramInsert_append acc k w hkacc
      have hdisj' : ∀ (w : ParamVal), ∀ q ∈ acc ++ [(k, w)],
          q.1 ∉ rest.map Prod.fst := by
        intro w q hq hmem
        rcases List.mem_append.mp hq with hq | hq
        · exact hdisj q hq (by simp [hmem])
        · rcases List.mem_singleton.mp hq with rfl
          simp only [List.mem_map] at hmem
          obtain ⟨p, hp, he⟩ := hmem
          exact hnodup p hp (by simp [he])
      have hszr : sizeOf rest ≤ n := by
        simp only [List.cons.sizeOf_spec] at hsz
        omega
      have hgk : getToken (NTok.str (qstr k)) true = some (NTok.str k) := by
        simp [getToken, getTokenStr_qstr_fold k hk]
      cases v with
      | str s =>
        have hgv : getTokenStr (qstr s) false = some s :=
          getTokenStr_qstr_raw s (by simpa [wfParamVal] using hv)
        simp only [encParams, encParamVal, parsePairAux, hgk, hgv]
        rw [hins, ih rest (acc ++ [(k, ParamVal.str s)]) hszr hrest (hdisj' _)]
        simp
      | null =>
        simp only [encParams, encParamVal, nilTok, parsePairAux, hgk,
          getTokenStr_NIL]
        rw [hins, ih rest (acc ++ [(k, ParamVal.null)]) hszr hrest (hdisj' _)]
        simp
      | dict d =>
        have hszd : sizeOf d ≤ n := by
          simp only [List.cons.sizeOf_spec, Prod.mk.sizeOf_spec,
            ParamVal.dict.sizeOf_spec] at hsz
          omega
        have hrec : parsePairAux (encParams d) false [] = some d := by
          rw [ih d [] hszd (by simpa [wfParamVal] using hv) (by simp)]
          simp
        simp only [encParams, encParamVal, parsePairAux, hgk, hrec]
        rw [hins, ih rest (acc ++ [(k, ParamVal.dict d)]) hszr hrest (hdisj' _)]
        simp

lemma parsePair_enc (ps : Params) (h : wfParams ps = true) :
    parsePair (encParams ps) false = some ps := by
  unfold parsePair
  rw [parsePairAux_enc (sizeOf ps) ps [] (le_refl _) h (by simp)]
  simp

lemma asOptParams_enc (o : Option Params) (h : wfOptParams o = true) :
    asOptParams (getToken (encOptParams o) true) = some o := by
  cases o with
  | none => simp [encOptParams, getToken_nil, asOptParams, asOptList]
  | some ps =>
    simp only [wfOptParams] at h
    simp [encOptParams, getToken, asOptParams, asOptList, parsePair_enc ps h]

lemma parseAddressOne_enc (a : Address) (h : wfAddr a = true) :
    parseAddressOne (encAddr a) = some a := by
  simp only [wfAddr, Bool.and_eq_true] at h
  obtain ⟨⟨⟨hu, hd⟩, hdn⟩, hs⟩ := h
  obtain ⟨u, dm, dn, sm⟩ := a
  simp only [encAddr, parseAddressOne]
  have hgu : getToken (NTok.str (qstr u)) false = some (NTok.str u) := by
    simp [getToken, getTokenStr_qstr_raw u hu]
  have hgd : getToken (NTok.str (qstr dm)) false = some (NTok.str dm) := by
    simp [getToken, getTokenStr_qstr_raw dm hd]
  have hgs : getToken (encTokVal sm) false = sm := getToken_encTokVal_raw sm hs
  cases dn with
  | none =>
    rw [show optQ none = nilTok from rfl, getToken_nil, hgu, hgd, hgs]
  | some dns =>
    simp only [wfOptRaw] at hdn
    have hgdn : getToken (optQ (some dns)) false = some (NTok.str dns) := by
      simp [optQ, getToken, getTokenStr_qstr_raw dns hdn]
    rw [hgdn, hgu, hgd, hgs]

lemma asAddrList_enc (o : Option (List Address)) (h : wfAddrList o = true) :
    asAddrList (getToken (encAddrList o) true) = some o := by
  cases o with
  | none => simp [encAddrList, getToken_nil, asAddrList, asOptList]
  | some l =>
    simp only [wfAddrList, List.all_eq_true] at h
    have hmm : (l.map encAddr).mapM parseAddressOne = some l := by
      induction l with
      | nil => rfl
      | cons a l ih =>
        have ha := parseAddressOne_enc a (h a (by simp))
        have hl := ih (fun x hx => h x (List.mem_cons_of_mem _ hx))
        simp only [List.map_cons, List.mapM_cons, ha, hl, Option.pure_def,
          Option.bind_eq_bind, Option.some_bind]
    show ((l.map encAddr).mapM parseAddressOne).map some = some (some l)
    rw [hmm]
    rfl

/-- The envelope loader inverts the envelope encoder on well-formed
envelopes. -/
lemma loadEnvelope_enc (e : Envelope) (h : wfEnvelope e = true) :
    loadEnvelopeFromNested (envFields e) = some e := by
  simp only [wfEnvelope, Bool.and_eq_true] at h
  obtain ⟨⟨⟨⟨⟨⟨⟨⟨⟨hdate, hsubj⟩, hfrom⟩, hsender⟩, hreply⟩, hto⟩, hcc⟩,
    hbcc⟩, hirt⟩, hmid⟩ := h
  obtain ⟨dt, sj, fr, sd, rt, t0, cc, bc, ir, mi⟩ := e
  simp only [loadEnvelopeFromNested, envFields, getTokenAt]
  simp only [List.getElem?_cons_zero, List.getElem?_cons_succ,
    Option.bind_eq_bind, Option.pure_def]
  rw [asOptStr_optQ_raw _ hdate, asOptStr_optQ_raw _ hsubj,
    asAddrList_enc _ hfrom, asAddrList_enc _ hsender, asAddrList_enc _ hreply,
    asAddrList_enc _ hto, asAddrList_enc _ hcc, asAddrList_enc _ hbcc,
    asOptStr_optQ_raw _ hirt, asOptStr_optQ_raw _ hmid]
  simp

/-! ### Multipart-scan behaviour on encoded tokens -/

/-- The per-token check of the multipart-detection scan. -/
def scanTok (t : NTok) : Bool :=
  match t with
  | NTok.str s =>
    match getTokenStr s true with
    | some s' => MULTIPART_SUBTYPES.contains s'
    | none => false
  | NTok.list _ => false

lemma scanMultipart_eq_any (ts : List NTok) :
    scanMultipart ts = ts.any scanTok := rfl

lemma mem_subtypes_safeFold {st : String}
    (h : MULTIPART_SUBTYPES.contains st = true) : safeFoldB st = true := by
  have hmem : st ∈ MULTIPART_SUBTYPES := List.elem_iff.mp h
  simp only [MULTIPART_SUBTYPES, List.mem_cons, List.not_mem_nil, or_false]
    at hmem
  rcases hmem with rfl | rfl | rfl | rfl | rfl | rfl | rfl | rfl | rfl | rfl <;>
    decide

lemma subtypes_not_nat (n : Nat) :
    MULTIPART_SUBTYPES.contains (natToString n) = false := by
  by_contra h
  rw [Bool.not_eq_false] at h
  have hmem : natToString n ∈ MULTIPART_SUBTYPES := List.elem_iff.mp h
  simp only [MULTIPART_SUBTYPES, List.mem_cons, List.not_mem_nil, or_false]
    at hmem
  rcases hmem with h | h | h | h | h | h | h | h | h | h <;>
    exact natToString_ne n _ (by decide) h

lemma scanTok_nil : scanTok nilTok = false := by decide

lemma scanTok_optQ_NK (o : Option String) (h : wfOptFoldNK o = true) :
    scanTok (optQ o) = false := by
  cases o with
  | none => exact scanTok_nil
  | some s =>
    simp only [wfOptFoldNK, Bool.and_eq_true, Bool.not_eq_true'] at h
    obtain ⟨hf, hnk⟩ := h
    simp only [optQ, scanTok, getTokenStr_qstr_fold s hf]
    exact hnk

lemma scanTok_optNat (o : Option Nat) : scanTok (optNatTok o) = false := by
  cases o with
  | none => exact scanTok_nil
  | some n =>
    simp only [optNatTok, scanTok, getTokenStr_natToString]
    exact subtypes_not_nat n

lemma scanTok_list (l : List NTok) : scanTok (NTok.list l) = false := rfl

lemma scanTok_encOptParams (o : Option Params) :
    scanTok (encOptParams o) = false := by
  cases o with
  | none => exact scanTok_nil
  | some ps => rfl

lemma scanTok_encTokVal_NK (t : Option NTok) (h : wfLangLeaf t = true) :
    scanTok (encTokVal t) = false := by
  cases t with
  | none => exact scanTok_nil
  | some tok =>
    cases tok with
    | str s =>
      simp only [wfLangLeaf, Bool.and_eq_true, Bool.not_eq_true'] at h
      obtain ⟨hf, hnk⟩ := h
      simp only [encTokVal, scanTok, getTokenStr_qstr_fold s hf]
      exact hnk
    | list l => simp [wfLangLeaf] at h

/-! ### Positional read lemmas -/

lemma getTokenAt_cons_zero (a : NTok) (l : List NTok) (pdq : Bool) :
    getTokenAt (a :: l) 0 pdq = getToken a pdq := by
  unfold getTokenAt
  rw [List.getElem?_cons_zero]

lemma getTokenAt_cons_succ (a : NTok) (l : List NTok) (i : Nat) (pdq : Bool) :
    getTokenAt (a :: l) (i + 1) pdq = getTokenAt l i pdq := by
  unfold getTokenAt
  rw [List.getElem?_cons_succ]

lemma getTokenAt_of_getElem {ts : List NTok} {i : Nat} {t : NTok} {pdq : Bool}
    (h : ts[i]? = some t) : getTokenAt ts i pdq = getToken t pdq := by
  unfold getTokenAt
  rw [h]

lemma loadLeafFields_enc (main sub : Option String) (params : Option Params)
    (id desc enc : Option String) (size : Option Nat) (suffix : List NTok)
    (hmain : wfOptFold main = true) (hsub : wfOptFold sub = true)
    (hparams : wfOptParams params = true) (hid : wfOptFold id = true)
    (hdesc : wfOptFold desc = true) (henc : wfOptFold enc = true) :
    loadLeafFields (optQ main :: optQ sub :: encOptParams params :: optQ id ::
      optQ desc :: optQ enc :: optNatTok size :: suffix) =
      some (main, sub, params, id, desc, enc, size) := by
  unfold loadLeafFields
  simp only [getTokenAt_cons_succ, getTokenAt_cons_zero,
    asOptStr_optQ_fold main hmain, asOptStr_optQ_fold sub hsub,
    asOptParams_enc params hparams, asOptStr_optQ_fold id hid,
    asOptStr_optQ_fold desc hdesc, asOptStr_optQ_fold enc henc,
    asOptStr_optNat size, Option.bind_eq_bind, Option.some_bind,
    asOptNat_map size]
  rfl

lemma loadNonMultiTail_enc (ts : List NTok) (i : Nat) (sect : List SecElem)
    (main sub : Option String) (params : Option Params)
    (id desc enc : Option String) (size : Option Nat) (env : Option Envelope)
    (envBody : Option Body) (lines md5 : Option Nat) (disp : Option Params)
    (lang : Option NTok) (loc : Option String)
    (h0 : getTokenAt ts i true = getToken (optNatTok md5) true)
    (h1 : getTokenAt ts (i + 1) true = getToken (encOptParams disp) true)
    (h2 : getTokenAt ts (i + 2) true = getToken (encTokVal lang) true)
    (h3 : getTokenAt ts (i + 3) true = getToken (optQ loc) true)
    (hd : wfOptParams disp = true) (hl : wfLangMulti lang = true)
    (hloc : wfOptFold loc = true) :
    loadNonMultiTail ts i sect main sub params id desc enc size env envBody
      lines = some (Body.nonMulti sect main sub params id desc enc size env
        envBody lines md5 disp lang loc) := by
  unfold loadNonMultiTail
  simp only [h0, h1, h2, h3, asOptStr_optNat md5,
    asOptParams_enc disp hd, getToken_encTokVal_fold lang hl,
    asOptStr_optQ_fold loc hloc, Option.bind_eq_bind, Option.some_bind,
    asOptNat_map md5]
  rfl

lemma encBodyList_isList :
    ∀ (parts : List Body), ∀ t ∈ encBodyList parts, isListTok t = true := by
  intro parts
  induction parts with
  | nil => intro t ht; simp [encBodyList] at ht
  | cons b bs ih =>
    intro t ht
    rcases List.mem_cons.mp (by simpa [encBodyList] using ht) with rfl | ht
    · rfl
    · exact ih t ht

lemma takeWhile_enc (l1 : List NTok) (s : String) (rest : List NTok)
    (h1 : ∀ t ∈ l1, isListTok t = true) :
    (l1 ++ NTok.str s :: rest).takeWhile isListTok = l1 ∧
    (l1 ++ NTok.str s :: rest).dropWhile isListTok = NTok.str s :: rest := by
  induction l1 with
  | nil => simp [List.takeWhile, List.dropWhile, isListTok]
  | cons a l ih =>
    have ha := h1 a (by simp)
    obtain ⟨iht, ihd⟩ := ih (fun t ht => h1 t (List.mem_cons_of_mem _ ht))
    constructor
    · simp only [List.cons_append, List.takeWhile_cons, ha, if_true, iht]
    · simp only [List.cons_append, List.dropWhile_cons, ha, if_true, ihd]

lemma scanTok_encodeEnvelope (e : Envelope) :
    scanTok (encodeEnvelope e) = false := rfl

lemma loadTextLines_other {ts : List NTok} {main : Option String}
    (h : ¬main = some "text") : loadTextLines ts main = some (none, 7) := by
  unfold loadTextLines
  rw [if_neg h]

/-- The body loader inverts the body encoder on well-formed trees (joint
strong induction with the sub-part loop). -/
lemma loadBody_enc_main :
    ∀ n : Nat,
      (∀ (b : Body) (sec : List SecElem) (pty : PTy), sizeOf b ≤ n →
        wfBody sec pty b = true →
        loadBodyAux (bodyFields b) sec pty = some b) ∧
      (∀ (parts : List Body) (base : List SecElem) (k : Nat),
        sizeOf parts ≤ n → wfSub base k parts = true →
        loadSubparts (encBodyList parts) base k = some parts) := by
  intro n
  induction n with
  | zero =>
    constructor
    · intro b sec pty h _
      exfalso
      cases b <;> simp [Body.multi.sizeOf_spec, Body.nonMulti.sizeOf_spec] at h
    · intro parts base k h _
      exfalso
      cases parts <;> simp [List.cons.sizeOf_spec] at h
  | succ n ih =>
    obtain ⟨ihb, ihs⟩ := ih
    constructor
    · intro b sec pty hsz hwf
      cases b with
      | multi sec' st parts params disp lang loc =>
        simp only [wfBody, Bool.and_eq_true] at hwf
        obtain ⟨⟨⟨⟨⟨⟨hsec, hst⟩, hparams⟩, hdisp⟩, hlang⟩, hloc⟩, hsub⟩ := hwf
        have hsec' : sec' =
            (if pty = PTy.isMessage then sec ++ [SecElem.txt] else sec) :=
          of_decide_eq_true hsec
        have hfields : bodyFields (Body.multi sec' st parts params disp lang
            loc) = encBodyList parts ++ NTok.str (qstr st) ::
              encOptParams params :: encOptParams disp :: encTokVal lang ::
              optQ loc :: [] := rfl
        have hgst : getToken (NTok.str (qstr st)) true = some (NTok.str st) := by
          simp [getToken, getTokenStr_qstr_fold st (mem_subtypes_safeFold hst)]
        have hscan : scanMultipart (encBodyList parts ++ NTok.str (qstr st) ::
            encOptParams params :: encOptParams disp :: encTokVal lang ::
            optQ loc :: []) = true := by
          rw [scanMultipart_eq_any]
          apply List.any_eq_true.mpr
          refine ⟨NTok.str (qstr st), by simp, ?_⟩
          simp only [scanTok, getTokenStr_qstr_fold st (mem_subtypes_safeFold hst)]
          exact hst
        obtain ⟨htake, hdrop⟩ := takeWhile_enc (encBodyList parts) (qstr st)
          (encOptParams params :: encOptParams disp :: encTokVal lang ::
            optQ loc :: []) (encBodyList_isList parts)
        have hszp : sizeOf parts ≤ n := by
          simp only [Body.multi.sizeOf_spec] at hsz
          omega
        have hsubp := ihs parts sec 1 hszp hsub
        rw [hfields]
        unfold loadBodyAux
        rw [if_pos hscan]
        dsimp only
        rw [htake, hdrop, hsubp]
        simp only [getTokenAt_cons_zero, getTokenAt_cons_succ, hgst,
          asOptParams_enc params hparams, asOptParams_enc disp hdisp,
          getToken_encTokVal_fold lang hlang, asOptStr_optQ_fold loc hloc,
          Option.bind_eq_bind, Option.some_bind, Option.pure_def,
          Option.some.injEq]
        rw [hsec']
      | nonMulti sec' main sub params id desc enc size env envBody lines md5
          disp lang loc =>
        unfold wfBody at hwf
        simp only [Bool.and_eq_true] at hwf
        obtain ⟨⟨⟨⟨⟨⟨⟨⟨⟨⟨hsec, hmain⟩, hsub'⟩, hparams⟩, hid⟩, hdesc⟩, henc⟩,
          hdisp⟩, hlang⟩, hloc⟩, hshape⟩ := hwf
        have hsec' : sec' = (if pty ≠ PTy.isMultipart then
            sec ++ [SecElem.num 1] else sec) := of_decide_eq_true hsec
        have hlangM := wfLangLeaf_multi hlang
        by_cases htext : main = some "text"
        · rw [if_pos htext] at hshape
          simp only [Bool.and_eq_true, Option.isNone_iff_eq_none] at hshape
          obtain ⟨henvn, hebn⟩ := hshape
          subst henvn
          subst hebn
          have hfields : bodyFields (Body.nonMulti sec' main sub params id
              desc enc size none none lines md5 disp lang loc) =
              optQ main :: optQ sub :: encOptParams params :: optQ id ::
              optQ desc :: optQ enc :: optNatTok size :: optNatTok lines ::
              optNatTok md5 :: encOptParams disp :: encTokVal lang ::
              optQ loc :: [] := by
            simp [bodyFields, htext]
          have hscan : scanMultipart (optQ main :: optQ sub ::
              encOptParams params :: optQ id :: optQ desc :: optQ enc ::
              optNatTok size :: optNatTok lines :: optNatTok md5 ::
              encOptParams disp :: encTokVal lang :: optQ loc :: []) =
              false := by
            rw [scanMultipart_eq_any]
            simp only [List.any_cons, List.any_nil,
              scanTok_optQ_NK main hmain, scanTok_optQ_NK sub hsub',
              scanTok_encOptParams, scanTok_optQ_NK id hid,
              scanTok_optQ_NK desc hdesc, scanTok_optQ_NK enc henc,
              scanTok_optNat, scanTok_encTokVal_NK lang hlang,
              scanTok_optQ_NK loc hloc, Bool.or_self, Bool.or_false]
          have hlines : loadTextLines (optQ main :: optQ sub ::
              encOptParams params :: optQ id :: optQ desc :: optQ enc ::
              optNatTok size :: optNatTok lines :: optNatTok md5 ::
              encOptParams disp :: encTokVal lang :: optQ loc :: []) main =
              some (lines, 8) := by
            unfold loadTextLines
            rw [if_pos htext]
            simp only [getTokenAt_cons_zero, getTokenAt_cons_succ,
              asOptStr_optNat lines, Option.bind_eq_bind, Option.some_bind,
              asOptNat_map lines]
            rfl
          have hmsg : ¬(main = some "message" ∧
              (sub = some "rfc822" ∨ sub = some "global")) := by
            rw [htext]
            rintro ⟨hc, _⟩
            exact absurd hc (by decide)
          rw [hfields]
          unfold loadBodyAux
          rw [if_neg (by rw [hscan]; exact Bool.false_ne_true)]
          dsimp only
          rw [loadLeafFields_enc main sub params id desc enc size _
            (wfOptFoldNK_fold hmain) (wfOptFoldNK_fold hsub') hparams
            (wfOptFoldNK_fold hid) (wfOptFoldNK_fold hdesc)
            (wfOptFoldNK_fold henc)]
          dsimp only
          rw [hlines]
          dsimp only
          rw [if_neg hmsg]
          rw [loadNonMultiTail_enc _ 8 _ main sub params id desc enc size
            none none lines md5 disp lang loc
            (by simp only [getTokenAt_cons_succ, getTokenAt_cons_zero])
            (by simp only [getTokenAt_cons_succ, getTokenAt_cons_zero])
            (by simp only [getTokenAt_cons_succ, getTokenAt_cons_zero])
            (by simp only [getTokenAt_cons_succ, getTokenAt_cons_zero])
            hdisp hlangM (wfOptFoldNK_fold hloc)]
          rw [hsec']
        · by_cases hmsg : main = some "message" ∧
              (sub = some "rfc822" ∨ sub = some "global")
          · rw [if_neg htext, if_pos hmsg] at hshape
            cases env with
            | none => simp at hshape
            | some e =>
              cases envBody with
              | none => simp at hshape
              | some bb =>
                simp only [Bool.and_eq_true] at hshape
                obtain ⟨henvwf, hbbwf⟩ := hshape
                have hfields : bodyFields (Body.nonMulti sec' main sub params
                    id desc enc size (some e) (some bb) lines md5 disp lang
                    loc) = optQ main :: optQ sub :: encOptParams params ::
                    optQ id :: optQ desc :: optQ enc :: optNatTok size ::
                    encodeEnvelope e :: NTok.list (bodyFields bb) ::
                    optNatTok lines :: optNatTok md5 :: encOptParams disp ::
                    encTokVal lang :: optQ loc :: [] := by
                  simp [bodyFields, htext]
                have hscan : scanMultipart (optQ main :: optQ sub ::
                    encOptParams params :: optQ id :: optQ desc :: optQ enc ::
                    optNatTok size :: encodeEnvelope e ::
                    NTok.list (bodyFields bb) :: optNatTok lines ::
                    optNatTok md5 :: encOptParams disp :: encTokVal lang ::
                    optQ loc :: []) = false := by
                  rw [scanMultipart_eq_any]
                  simp only [List.any_cons, List.any_nil,
                    scanTok_optQ_NK main hmain, scanTok_optQ_NK sub hsub',
                    scanTok_encOptParams, scanTok_optQ_NK id hid,
                    scanTok_optQ_NK desc hdesc, scanTok_optQ_NK enc henc,
                    scanTok_optNat, scanTok_encodeEnvelope, scanTok_list,
                    scanTok_encTokVal_NK lang hlang,
                    scanTok_optQ_NK loc hloc, Bool.or_self, Bool.or_false]
                have hszbb : sizeOf bb ≤ n := by
                  simp only [Body.nonMulti.sizeOf_spec,
                    Option.some.sizeOf_spec] at hsz
                  omega
                have hbb := ihb bb (if pty ≠ PTy.isMultipart then
                  sec ++ [SecElem.num 1] else sec) PTy.isMessage hszbb hbbwf
                rw [hfields]
                unfold loadBodyAux
                rw [if_neg (by rw [hscan]; exact Bool.false_ne_true)]
                dsimp only
                rw [loadLeafFields_enc main sub params id desc enc size _
                  (wfOptFoldNK_fold hmain) (wfOptFoldNK_fold hsub') hparams
                  (wfOptFoldNK_fold hid) (wfOptFoldNK_fold hdesc)
                  (wfOptFoldNK_fold henc)]
                dsimp only
                rw [loadTextLines_other htext]
                dsimp only
                rw [if_pos hmsg]
                have h7 : getTokenAt (optQ main :: optQ sub ::
                    encOptParams params :: optQ id :: optQ desc :: optQ enc ::
                    optNatTok size :: encodeEnvelope e ::
                    NTok.list (bodyFields bb) :: optNatTok lines ::
                    optNatTok md5 :: encOptParams disp :: encTokVal lang ::
                    optQ loc :: []) 7 true = some (NTok.list (envFields e)) := by
                  simp only [getTokenAt_cons_succ, getTokenAt_cons_zero]
                  rfl
                have h8 : getTokenAt (optQ main :: optQ sub ::
                    encOptParams params :: optQ id :: optQ desc :: optQ enc ::
                    optNatTok size :: encodeEnvelope e ::
                    NTok.list (bodyFields bb) :: optNatTok lines ::
                    optNatTok md5 :: encOptParams disp :: encTokVal lang ::
                    optQ loc :: []) 8 true = some (NTok.list (bodyFields bb)) := by
                  simp only [getTokenAt_cons_succ, getTokenAt_cons_zero]
                  rfl
                split
                case _ envToks heq =>
                  rw [h7] at heq
                  injection heq with heq
                  injection heq with heq
                  subst heq
                  rw [loadEnvelope_enc e henvwf]
                  simp only [Option.bind_eq_bind, Option.some_bind]
                  split
                  case _ bodyToks heq2 =>
                    rw [h8] at heq2
                    injection heq2 with heq2
                    injection heq2 with heq2
                    subst heq2
                    rw [hbb]
                    simp only [getTokenAt_cons_succ, getTokenAt_cons_zero,
                      asOptStr_optNat lines, Option.bind_eq_bind,
                      Option.some_bind, asOptNat_map lines]
                    rw [loadNonMultiTail_enc _ 10 _ main sub params id desc
                      enc size (some e) (some bb) lines md5 disp lang loc
                      (by simp only [getTokenAt_cons_succ, getTokenAt_cons_zero])
                      (by simp only [getTokenAt_cons_succ, getTokenAt_cons_zero])
                      (by simp only [getTokenAt_cons_succ, getTokenAt_cons_zero])
                      (by simp only [getTokenAt_cons_succ, getTokenAt_cons_zero])
                      hdisp hlangM (wfOptFoldNK_fold hloc)]
                    rw [hsec']
                  case _ hne =>
                    exact (hne (bodyFields bb) h8).elim
                case _ s heq =>
                  rw [h7] at heq
                  exact absurd heq (by simp)
                case _ heq =>
                  rw [h7] at heq
                  exact absurd heq (by simp)
          · rw [if_neg htext, if_neg hmsg] at hshape
            simp only [Bool.and_eq_true, Option.isNone_iff_eq_none] at hshape
            obtain ⟨⟨henvn, hebn⟩, hlinesn⟩ := hshape
            subst henvn
            subst hebn
            subst hlinesn
            have hfields : bodyFields (Body.nonMulti sec' main sub params id
                desc enc size none none none md5 disp lang loc) =
                optQ main :: optQ sub :: encOptParams params :: optQ id ::
                optQ desc :: optQ enc :: optNatTok size :: optNatTok md5 ::
                encOptParams disp :: encTokVal lang :: optQ loc :: [] := by
              simp [bodyFields, htext]
            have hscan : scanMultipart (optQ main :: optQ sub ::
                encOptParams params :: optQ id :: optQ desc :: optQ enc ::
                optNatTok size :: optNatTok md5 :: encOptParams disp ::
                encTokVal lang :: optQ loc :: []) = false := by
              rw [scanMultipart_eq_any]
              simp only [List.any_cons, List.any_nil,
                scanTok_optQ_NK main hmain, scanTok_optQ_NK sub hsub',
                scanTok_encOptParams, scanTok_optQ_NK id hid,
                scanTok_optQ_NK desc hdesc, scanTok_optQ_NK enc henc,
                scanTok_optNat, scanTok_encTokVal_NK lang hlang,
                scanTok_optQ_NK loc hloc, Bool.or_self, Bool.or_false]
            rw [hfields]
            unfold loadBodyAux
            rw [if_neg (by rw [hscan]; exact Bool.false_ne_true)]
            dsimp only
            rw [loadLeafFields_enc main sub params id desc enc size _
              (wfOptFoldNK_fold hmain) (wfOptFoldNK_fold hsub') hparams
              (wfOptFoldNK_fold hid) (wfOptFoldNK_fold hdesc)
              (wfOptFoldNK_fold henc)]
            dsimp only
            rw [loadTextLines_other htext]
            dsimp only
            rw [if_neg hmsg]
            rw [loadNonMultiTail_enc _ 7 _ main sub params id desc enc size
              none none none md5 disp lang loc
              (by simp only [getTokenAt_cons_succ, getTokenAt_cons_zero])
              (by simp only [getTokenAt_cons_succ, getTokenAt_cons_zero])
              (by simp only [getTokenAt_cons_succ, getTokenAt_cons_zero])
              (by simp only [getTokenAt_cons_succ, getTokenAt_cons_zero])
              hdisp hlangM (wfOptFoldNK_fold hloc)]
            rw [hsec']
    · intro parts base k hsz hwf
      cases parts with
      | nil => simp [encBodyList, loadSubparts]
      | cons b bs =>
        simp only [wfSub, Bool.and_eq_true] at hwf
        obtain ⟨hb, hbs⟩ := hwf
        have hszb : sizeOf b ≤ n := by
          simp only [List.cons.sizeOf_spec] at hsz
          omega
        have hszbs : sizeOf bs ≤ n := by
          simp only [List.cons.sizeOf_spec] at hsz
          omega
        have h1 := ihb b (base ++ [SecElem.num k]) PTy.isMultipart hszb hb
        have h2 := ihs bs base (k + 1) hszbs hbs
        simp only [encBodyList]
        unfold loadSubparts
        rw [h1]
        simp only [Option.bind_eq_bind, Option.some_bind]
        rw [h2]
        rfl

/-! ### Rendering nested tokens back to IMAP text -/

mutual

/-- Render a nested token to text; inside a list every token is followed by
a space so the tokenizer flushes unquoted atoms. -/
def renderTok : NTok → List Char
  | NTok.str s => s.data
  | NTok.list ts => '(' :: renderList ts ++ [')']

def renderList : List NTok → List Char
  | [] => []
  | t :: ts => renderTok t ++ ' ' :: renderList ts

end

mutual

/-- The flat token-string sequence the tokenizer produces from a rendered
token. -/
def flatTok : NTok → List String
  | NTok.str s => [s]
  | NTok.list ts => "(" :: flatList ts ++ [")"]

def flatList : List NTok → List String
  | [] => []
  | t :: ts => flatTok t ++ flatList ts

end

/-- The nested tokens the renderer writes back faithfully: unquoted atoms
over atom characters, quoted strings with safe content, and lists of such
tokens. -/
inductive RTok : NTok → Prop
  | atom {s : String} : s.data ≠ [] → s.data.all atomChar = true →
      RTok (NTok.str s)
  | quoted {u : String} : safeRawB u = true → RTok (NTok.str (qstr u))
  | list {ts : List NTok} : (∀ t ∈ ts, RTok t) → RTok (NTok.list ts)

/-- An unquoted run of atom characters followed by a space becomes one
token (flushed at the space). -/
lemma tokenizeAux_atomrun :
    ∀ (l buf rest : List Char), l.all atomChar = true →
      tokenizeAux (l ++ ' ' :: rest) false buf =
        (if (buf ++ l).isEmpty then [] else [String.mk (buf ++ l)]) ++
          tokenizeAux rest false [] := by
  intro l
  induction l with
  | nil =>
    intro buf rest _
    simp only [List.nil_append, List.append_nil, tokenizeAux]
    rw [if_pos (by simp)]
    simp
  | cons c cs ih =>
    intro buf rest hall
    simp only [List.all_cons, Bool.and_eq_true] at hall
    obtain ⟨hc, hcs⟩ := hall
    unfold atomChar at hc
    simp only [Bool.not_eq_true', Bool.or_eq_false_iff,
      beq_eq_false_iff_ne, ne_eq] at hc
    obtain ⟨⟨⟨⟨h1, h2⟩, h3⟩, h4⟩, _⟩ := hc
    have step : tokenizeAux ((c :: cs) ++ ' ' :: rest) false buf =
        tokenizeAux (cs ++ ' ' :: rest) false (buf ++ [c]) := by
      simp only [List.cons_append, tokenizeAux]
      rw [if_neg (by simp [h1, h2, h3]), if_neg h4]
      rfl
    rw [step, ih (buf ++ [c]) rest hcs]
    simp [List.append_assoc]

/-- Tokenizing a rendered token list recovers its flat token strings and
continues with the remaining text. -/
lemma tokenizeAux_renderList :
    ∀ (n : Nat) (ts : List NTok) (rest : List Char), sizeOf ts ≤ n →
      (∀ t ∈ ts, RTok t) →
      tokenizeAux (renderList ts ++ rest) false [] =
        flatList ts ++ tokenizeAux rest false [] := by
  intro n
  induction n with
  | zero =>
    intro ts rest h _
    exfalso
    cases ts <;> simp [List.cons.sizeOf_spec] at h
  | succ n ih =>
    intro ts rest hsz hr
    cases ts with
    | nil => simp [renderList, flatList]
    | cons t ts' =>
      have hts' : sizeOf ts' ≤ n := by
        simp only [List.cons.sizeOf_spec] at hsz
        omega
      have hrts' : ∀ u ∈ ts', RTok u :=
        fun u hu => hr u (List.mem_cons_of_mem _ hu)
      have hrt := hr t (by simp)
      cases hrt with
      | @atom s hne hall =>
        have hrw : renderList (NTok.str s :: ts') ++ rest =
            s.data ++ ' ' :: (renderList ts' ++ rest) := by
          simp [renderList, renderTok, List.append_assoc]
        rw [hrw, tokenizeAux_atomrun s.data [] (renderList ts' ++ rest) hall,
          ih ts' rest hts' hrts']
        rw [if_neg (by simpa using hne)]
        simp [flatList, flatTok, strMk_data]
      | @quoted u hsafe =>
        have hrw : renderList (NTok.str (qstr u) :: ts') ++ rest =
            '"' :: u.data ++ '"' :: (' ' :: (renderList ts' ++ rest)) := by
          simp [renderList, renderTok, qstr_data, List.append_assoc]
        rw [hrw, tokenizeAux_quoted u.data [] _ (safeRaw_no_quote hsafe)]
        have hsp : tokenizeAux (' ' :: (renderList ts' ++ rest)) false [] =
            tokenizeAux (renderList ts' ++ rest) false [] := by
          simp [tokenizeAux]
        rw [hsp, ih ts' rest hts' hrts']
        have hq : String.mk ('"' :: u.data ++ ['"']) = qstr u := by
          rw [← qstr_data, strMk_data]
        rw [hq]
        simp [flatList, flatTok]
      | @list l hmem =>
        have hszl : sizeOf l ≤ n := by
          simp only [List.cons.sizeOf_spec, NTok.list.sizeOf_spec] at hsz
          omega
        have hrw : renderList (NTok.list l :: ts') ++ rest =
            '(' :: (renderList l ++
              (')' :: ' ' :: (renderList ts' ++ rest))) := by
          simp [renderList, renderTok, List.append_assoc]
        rw [hrw]
        have h1 : tokenizeAux ('(' :: (renderList l ++
            (')' :: ' ' :: (renderList ts' ++ rest)))) false [] =
            "(" :: tokenizeAux (renderList l ++
              (')' :: ' ' :: (renderList ts' ++ rest))) false [] := by
          simp [tokenizeAux]
        rw [h1, ih l _ hszl hmem]
        have h2 : tokenizeAux (')' :: ' ' :: (renderList ts' ++ rest))
            false [] = ")" :: tokenizeAux (renderList ts' ++ rest)
              false [] := by
          simp [tokenizeAux]
        rw [h2, ih ts' rest hts' hrts']
        simp [flatList, flatTok]

/-- Rendered token lists contain no newline, so the tokenizer's newline
normalization leaves them unchanged. -/
lemma renderList_no_newline :
    ∀ (n : Nat) (ts : List NTok), sizeOf ts ≤ n → (∀ t ∈ ts, RTok t) →
      '\n' ∉ renderList ts := by
  intro n
  induction n with
  | zero =>
    intro ts h _
    exfalso
    cases ts <;> simp [List.cons.sizeOf_spec] at h
  | succ n ih =>
    intro ts hsz hr
    cases ts with
    | nil => simp [renderList]
    | cons t ts' =>
      have hts' : sizeOf ts' ≤ n := by
        simp only [List.cons.sizeOf_spec] at hsz
        omega
      have htail : '\n' ∉ renderList ts' :=
        ih ts' hts' (fun u hu => hr u (List.mem_cons_of_mem _ hu))
      have hrt := hr t (by simp)
      cases hrt with
      | @atom s hne hall =>
        show '\n' ∉ s.data ++ ' ' :: renderList ts'
        intro hmem
        rcases List.mem_append.mp hmem with hm | hm
        · have := List.all_eq_true.mp hall _ hm
          simp [atomChar] at this
        · rcases List.mem_cons.mp hm with hm | hm
          · exact absurd hm (by decide)
          · exact htail hm
      | @quoted u hsafe =>
        show '\n' ∉ (qstr u).data ++ ' ' :: renderList ts'
        rw [qstr_data]
        intro hmem
        rcases List.mem_append.mp hmem with hm | hm
        · rcases List.mem_cons.mp hm with hm | hm
          · exact absurd hm (by decide)
          · rcases List.mem_append.mp hm with hm | hm
            · exact safeRaw_no_newline hsafe hm
            · rcases List.mem_singleton.mp hm with hm
              exact absurd hm (by decide)
        · rcases List.mem_cons.mp hm with hm | hm
          · exact absurd hm (by decide)
          · exact htail hm
      | @list l hmem =>
        have hszl : sizeOf l ≤ n := by
          simp only [List.cons.sizeOf_spec, NTok.list.sizeOf_spec] at hsz
          omega
        have hin : '\n' ∉ renderList l := ih l hszl hmem
        show '\n' ∉ ('(' :: renderList l ++ [')']) ++ ' ' :: renderList ts'
        intro hm
        rcases List.mem_append.mp hm with hm | hm
        · rcases List.mem_cons.mp hm with hm | hm
          · exact absurd hm (by decide)
          · rcases List.mem_append.mp hm with hm | hm
            · exact hin hm
            · rcases List.mem_singleton.mp hm with hm
              exact absurd hm (by decide)
        · rcases List.mem_cons.mp hm with hm | hm
          · exact absurd hm (by decide)
          · exact htail hm

/-- Renderable string tokens are never a bare bracket token. -/
lemma qstr_ne_paren (u : String) (s : String) (hs : s.data.length = 1) :
    qstr u ≠ s := by
  intro h
  have hd := congrArg String.data h
  rw [qstr_data] at hd
  have := congrArg List.length hd
  simp [hs] at this

/-- Nesting a rendered flat token sequence appends the original nested
tokens to the current level. -/
lemma nestAux_flat :
    ∀ (n : Nat) (ts : List NTok) (rest : List String) (cur : List NTok)
      (stack : List (List NTok)), sizeOf ts ≤ n → (∀ t ∈ ts, RTok t) →
      nestAux (flatList ts ++ rest) cur stack =
        nestAux rest (cur ++ ts) stack := by
  intro n
  induction n with
  | zero =>
    intro ts rest cur stack h _
    exfalso
    cases ts <;> simp [List.cons.sizeOf_spec] at h
  | succ n ih =>
    intro ts rest cur stack hsz hr
    cases ts with
    | nil => simp [flatList]
    | cons t ts' =>
      have hts' : sizeOf ts' ≤ n := by
        simp only [List.cons.sizeOf_spec] at hsz
        omega
      have hrts' : ∀ u ∈ ts', RTok u :=
        fun u hu => hr u (List.mem_cons_of_mem _ hu)
      have hrt := hr t (by simp)
      cases hrt with
      | @atom s hne hall =>
        have hsl : s ≠ "(" ∧ s ≠ ")" := by
          constructor <;> intro h <;> subst h <;>
            exact absurd hall (by decide)
        have hrw : flatList (NTok.str s :: ts') ++ rest =
            s :: (flatList ts' ++ rest) := by
          simp [flatList, flatTok]
        rw [hrw]
        show (if s = "(" then _ else if s = ")" then _ else
          nestAux (flatList ts' ++ rest) (cur ++ [NTok.str s]) stack) = _
        rw [if_neg hsl.1, if_neg hsl.2,
          ih ts' rest (cur ++ [NTok.str s]) stack hts' hrts']
        simp
      | @quoted u hsafe =>
        have hsl : qstr u ≠ "(" ∧ qstr u ≠ ")" :=
          ⟨qstr_ne_paren u _ (by decide), qstr_ne_paren u _ (by decide)⟩
        have hrw : flatList (NTok.str (qstr u) :: ts') ++ rest =
            qstr u :: (flatList ts' ++ rest) := by
          simp [flatList, flatTok]
        rw [hrw]
        show (if qstr u = "(" then _ else if qstr u = ")" then _ else
          nestAux (flatList ts' ++ rest) (cur ++ [NTok.str (qstr u)])
            stack) = _
        rw [if_neg hsl.1, if_neg hsl.2,
          ih ts' rest (cur ++ [NTok.str (qstr u)]) stack hts' hrts']
        simp
      | @list l hmem =>
        have hszl : sizeOf l ≤ n := by
          simp only [List.cons.sizeOf_spec, NTok.list.sizeOf_spec] at hsz
          omega
        have hrw : flatList (NTok.list l :: ts') ++ rest =
            "(" :: (flatList l ++ (")" :: (flatList ts' ++ rest))) := by
          simp [flatList, flatTok]
        rw [hrw]
        show nestAux ("(" :: (flatList l ++ (")" :: (flatList ts' ++
          rest)))) cur stack = _
        rw [show nestAux ("(" :: (flatList l ++ (")" :: (flatList ts' ++
            rest)))) cur stack = nestAux (flatList l ++ (")" ::
            (flatList ts' ++ rest))) [] (cur :: stack) from by
          simp [nestAux]]
        rw [ih l _ [] (cur :: stack) hszl hmem]
        rw [show nestAux (")" :: (flatList ts' ++ rest)) ([] ++ l)
            (cur :: stack) = nestAux (flatList ts' ++ rest)
              (cur ++ [NTok.list ([] ++ l)]) stack from by
          simp [nestAux]]
        rw [ih ts' rest _ stack hts' hrts']
        simp

/-- `nest_tokens` inverts the flat rendering of a bracketed token list. -/
lemma nest_flat (ts : List NTok) (h : ∀ t ∈ ts, RTok t) :
    nest_tokens ("(" :: flatList ts ++ [")"]) = ts := by
  unfold nest_tokens
  have hdl : (("(" :: flatList ts ++ [")"]).drop 1).dropLast =
      flatList ts := by
    simp [List.dropLast_concat]
  rw [hdl, ← List.append_nil (flatList ts),
    nestAux_flat (sizeOf ts) ts [] [] [] le_rfl h]
  rfl

/-- The first space of the rendered text is the one ending the response
identifier. -/
lemma findIdx_space :
    ∀ (pre X : List Char) (i : Nat), (∀ c ∈ pre, ¬c = ' ') →
      List.findIdx? (· = ' ') (pre ++ ' ' :: X) i =
        some (pre.length + i) := by
  intro pre
  induction pre with
  | nil =>
    intro X i _
    rw [List.nil_append, List.findIdx?_cons, if_pos (by simp)]
    simp
  | cons c cs ih =>
    intro X i h
    rw [List.cons_append, List.findIdx?_cons,
      if_neg (by simp [h c (List.mem_cons_self c cs)]),
      ih X (i + 1) (fun d hd => h d (List.mem_cons_of_mem _ hd))]
    congr 1
    simp
    omega

/-- The identifier-stripping slice on `identifier SP body RPAREN` yields
the body. -/
lemma stripIdentifier_wrap (pre X : List Char)
    (h : ∀ c ∈ pre, ¬c = ' ') :
    stripIdentifier (pre ++ ' ' :: X) = X.dropLast := by
  unfold stripIdentifier
  rw [findIdx_space pre X 0 h]
  show ((pre ++ ' ' :: X).drop (pre.length + 0 + 1)).dropLast = X.dropLast
  congr 1
  rw [show pre ++ ' ' :: X = (pre ++ [' ']) ++ X by simp,
    show pre.length + 0 + 1 = (pre ++ [' ']).length by simp]
  exact List.drop_left _ _

/-- Tokenizing `(IDENT SP rendered-list RPAREN)` yields the bracketed flat
token strings of the list. -/
lemma tokenize_wrap (pre : List Char) (ts : List NTok)
    (hnl : '\n' ∉ pre) (hsp : ∀ c ∈ pre, ¬c = ' ')
    (h : ∀ t ∈ ts, RTok t) :
    tokenize (pre ++ ' ' :: (renderTok (NTok.list ts) ++ [')'])) =
      "(" :: flatList ts ++ [")"] := by
  unfold tokenize
  have hnltext : '\n' ∉ pre ++ ' ' :: (renderTok (NTok.list ts) ++ [')']) := by
    intro hm
    rcases List.mem_append.mp hm with hm | hm
    · exact hnl hm
    · rcases List.mem_cons.mp hm with hm | hm
      · exact absurd hm (by decide)
      · rcases List.mem_append.mp hm with hm | hm
        · show False
          rw [show renderTok (NTok.list ts) =
              '(' :: renderList ts ++ [')'] from rfl] at hm
          rcases List.mem_cons.mp hm with hm | hm
          · exact absurd hm (by decide)
          · rcases List.mem_append.mp hm with hm | hm
            · exact renderList_no_newline (sizeOf ts) ts le_rfl h hm
            · rcases List.mem_singleton.mp hm with hm
              exact absurd hm (by decide)
        · rcases List.mem_singleton.mp hm with hm
          exact absurd hm (by decide)
  rw [pyReplaceChar_id _ hnltext]
  show tokenizeAux (stripIdentifier (pre ++ ' ' ::
    (renderTok (NTok.list ts) ++ [')']))) false [] = _
  rw [stripIdentifier_wrap pre _ hsp, List.dropLast_concat]
  show tokenizeAux ('(' :: renderList ts ++ [')']) false [] = _
  rw [show ('(' : Char) :: renderList ts ++ [')'] =
    '(' :: (renderList ts ++ [')']) from by simp]
  rw [show tokenizeAux ('(' :: (renderList ts ++ [')'])) false [] =
      "(" :: tokenizeAux (renderList ts ++ [')']) false [] from by
    simp [tokenizeAux]]
  rw [tokenizeAux_renderList (sizeOf ts) ts [')'] le_rfl h]
  rw [show tokenizeAux [')'] false [] = [")"] from by simp [tokenizeAux]]
  simp

/-- The textual `(ENVELOPE ...)` fetch item produced by the reference
encoder. -/
def encodeEnvelopeText (e : Envelope) : List Char :=
  "(ENVELOPE".data ++ ' ' :: (renderTok (encodeEnvelope e) ++ [')'])

/-- The textual `(BODYSTRUCTURE ...)` fetch item produced by the reference
encoder. -/
def encodeBodyText (b : Body) : List Char :=
  "(BODYSTRUCTURE".data ++ ' ' :: (renderTok (encodeBody b) ++ [')'])

/-! ### Every token the encoder emits is renderable -/

lemma safeFold_raw {s : String} (h : safeFoldB s = true) :
    safeRawB s = true := by
  unfold safeFoldB at h
  simp only [Bool.and_eq_true] at h
  exact h.1.1

lemma rtok_nil : RTok nilTok := RTok.atom (by decide) (by decide)

lemma natToString_ne_nil (n : Nat) : (natToString n).data ≠ [] := by
  unfold natToString
  by_cases h0 : n = 0
  · rw [if_pos h0]
    decide
  · rw [if_neg h0]
    show ((Nat.digits 10 n).map Nat.digitChar).reverse ≠ []
    simp only [ne_eq, List.reverse_eq_nil_iff, List.map_eq_nil_iff]
    exact Nat.digits_ne_nil_iff_ne_zero.mpr h0

lemma rtok_nat (n : Nat) : RTok (NTok.str (natToString n)) :=
  RTok.atom (natToString_ne_nil n)
    (List.all_eq_true.mpr (fun c hc => (natToString_chars n c hc).2.2))

lemma rtok_optQ_fold (o : Option String) (h : wfOptFold o = true) :
    RTok (optQ o) := by
  cases o with
  | none => exact rtok_nil
  | some s =>
    exact RTok.quoted (safeFold_raw (by simpa [wfOptFold] using h))

lemma rtok_optQ_raw (o : Option String) (h : wfOptRaw o = true) :
    RTok (optQ o) := by
  cases o with
  | none => exact rtok_nil
  | some s => exact RTok.quoted (by simpa [wfOptRaw] using h)

lemma rtok_optNatTok (o : Option Nat) : RTok (optNatTok o) := by
  cases o with
  | none => exact rtok_nil
  | some n => exact rtok_nat n

lemma rtok_encTokVal_raw (t : Option NTok) (h : wfSmtp t = true) :
    RTok (encTokVal t) := by
  cases t with
  | none => exact rtok_nil
  | some u =>
    cases u with
    | str s => exact RTok.quoted (by simpa [wfSmtp] using h)
    | list l => exact absurd h (by simp [wfSmtp])

lemma rtok_encTokVal_fold (t : Option NTok) (h : wfLangMulti t = true) :
    RTok (encTokVal t) := by
  cases t with
  | none => exact rtok_nil
  | some u =>
    cases u with
    | str s =>
      exact RTok.quoted (safeFold_raw (by simpa [wfLangMulti] using h))
    | list l => exact absurd h (by simp [wfLangMulti])

/-- Well-formed parameter values and dictionaries render to renderable
tokens (joint strong induction over the nested dictionary structure). -/
lemma rtok_params_main :
    ∀ n : Nat,
      (∀ v : ParamVal, sizeOf v ≤ n → wfParamVal v = true →
        RTok (encParamVal v)) ∧
      (∀ ps : Params, sizeOf ps ≤ n → wfParams ps = true →
        ∀ t ∈ encParams ps, RTok t) := by
  intro n
  induction n with
  | zero =>
    constructor
    · intro v h _
      exfalso
      cases v <;> simp [ParamVal.str.sizeOf_spec] at h
    · intro ps h _
      exfalso
      cases ps <;> simp [List.cons.sizeOf_spec] at h
  | succ n ih =>
    obtain ⟨ihv, ihp⟩ := ih
    constructor
    · intro v hsz hwf
      cases v with
      | str s => exact RTok.quoted (by simpa [wfParamVal] using hwf)
      | null => exact rtok_nil
      | dict d =>
        have hd : sizeOf d ≤ n := by
          simp only [ParamVal.dict.sizeOf_spec] at hsz
          omega
        exact RTok.list (ihp d hd (by simpa [wfParamVal] using hwf))
    · intro ps hsz hwf
      cases ps with
      | nil => simp [encParams]
      | cons p rest =>
        obtain ⟨k, v⟩ := p
        simp only [wfParams, Bool.and_eq_true] at hwf
        obtain ⟨⟨⟨hk, hv⟩, _⟩, hrest⟩ := hwf
        have hszv : sizeOf v ≤ n := by
          simp only [List.cons.sizeOf_spec, Prod.mk.sizeOf_spec] at hsz
          omega
        have hszr : sizeOf rest ≤ n := by
          simp only [List.cons.sizeOf_spec] at hsz
          omega
        intro t ht
        simp only [encParams, List.mem_cons] at ht
        rcases ht with rfl | rfl | ht
        · exact RTok.quoted (safeFold_raw hk)
        · exact ihv v hszv hv
        · exact ihp rest hszr hrest t ht

lemma rtok_encOptParams (o : Option Params) (h : wfOptParams o = true) :
    RTok (encOptParams o) := by
  cases o with
  | none => exact rtok_nil
  | some ps =>
    exact RTok.list
      ((rtok_params_main (sizeOf ps)).2 ps le_rfl
        (by simpa [wfOptParams] using h))

lemma rtok_encAddr (a : Address) (h : wfAddr a = true) : RTok (encAddr a) := by
  unfold wfAddr at h
  simp only [Bool.and_eq_true] at h
  obtain ⟨⟨⟨hu, hd⟩, hdn⟩, hs⟩ := h
  refine RTok.list ?_
  intro t ht
  simp only [encAddr, List.mem_cons, List.not_mem_nil, or_false] at ht
  rcases ht with rfl | rfl | rfl | rfl
  · exact rtok_optQ_raw _ hdn
  · exact rtok_encTokVal_raw _ hs
  · exact RTok.quoted hu
  · exact RTok.quoted hd

lemma rtok_encAddrList (o : Option (List Address))
    (h : wfAddrList o = true) : RTok (encAddrList o) := by
  cases o with
  | none => exact rtok_nil
  | some l =>
    refine RTok.list ?_
    intro t ht
    obtain ⟨a, ha, rfl⟩ := List.mem_map.mp ht
    exact rtok_encAddr a
      (List.all_eq_true.mp (by simpa [wfAddrList] using h) a ha)

lemma rtok_envFields (e : Envelope) (h : wfEnvelope e = true) :
    ∀ t ∈ envFields e, RTok t := by
  unfold wfEnvelope at h
  simp only [Bool.and_eq_true] at h
  obtain ⟨⟨⟨⟨⟨⟨⟨⟨⟨h1, h2⟩, h3⟩, h4⟩, h5⟩, h6⟩, h7⟩, h8⟩, h9⟩, h10⟩ := h
  intro t ht
  simp only [envFields, List.mem_cons, List.not_mem_nil, or_false] at ht
  rcases ht with rfl | rfl | rfl | rfl | rfl | rfl | rfl | rfl | rfl | rfl
  · exact rtok_optQ_raw _ h1
  · exact rtok_optQ_raw _ h2
  · exact rtok_encAddrList _ h3
  · exact rtok_encAddrList _ h4
  · exact rtok_encAddrList _ h5
  · exact rtok_encAddrList _ h6
  · exact rtok_encAddrList _ h7
  · exact rtok_encAddrList _ h8
  · exact rtok_optQ_raw _ h9
  · exact rtok_optQ_raw _ h10

lemma rtok_encodeEnvelope (e : Envelope) (h : wfEnvelope e = true) :
    RTok (encodeEnvelope e) := RTok.list (rtok_envFields e h)

lemma rtok_optQ_foldNK (o : Option String) (h : wfOptFoldNK o = true) :
    RTok (optQ o) := rtok_optQ_fold o (wfOptFoldNK_fold h)

/-- Every field token of a well-formed body part is renderable (joint
strong induction with the sub-part list). -/
lemma rtok_body_main :
    ∀ n : Nat,
      (∀ (b : Body) (sec : List SecElem) (pty : PTy), sizeOf b ≤ n →
        wfBody sec pty b = true → ∀ t ∈ bodyFields b, RTok t) ∧
      (∀ (parts : List Body) (base : List SecElem) (k : Nat),
        sizeOf parts ≤ n → wfSub base k parts = true →
        ∀ t ∈ encBodyList parts, RTok t) := by
  intro n
  induction n with
  | zero =>
    constructor
    · intro b sec pty h _
      exfalso
      cases b <;> simp [Body.multi.sizeOf_spec, Body.nonMulti.sizeOf_spec]
        at h
    · intro parts base k h _
      exfalso
      cases parts <;> simp [List.cons.sizeOf_spec] at h
  | succ n ih =>
    obtain ⟨ihb, ihs⟩ := ih
    constructor
    · intro b sec pty hsz hwf
      cases b with
      | multi sec' st parts params disp lang loc =>
        simp only [wfBody, Bool.and_eq_true] at hwf
        obtain ⟨⟨⟨⟨⟨⟨_, hst⟩, hparams⟩, hdisp⟩, hlang⟩, hloc⟩, hsub⟩ := hwf
        have hszp : sizeOf parts ≤ n := by
          simp only [Body.multi.sizeOf_spec] at hsz
          omega
        intro t ht
        rw [show bodyFields (Body.multi sec' st parts params disp lang loc)
          = encBodyList parts ++ [NTok.str (qstr st), encOptParams params,
            encOptParams disp, encTokVal lang, optQ loc] from rfl] at ht
        rcases List.mem_append.mp ht with ht | ht
        · exact ihs parts sec 1 hszp hsub t ht
        · simp only [List.mem_cons, List.not_mem_nil, or_false] at ht
          rcases ht with rfl | rfl | rfl | rfl | rfl
          · exact RTok.quoted (safeFold_raw (mem_subtypes_safeFold hst))
          · exact rtok_encOptParams _ hparams
          · exact rtok_encOptParams _ hdisp
          · exact rtok_encTokVal_fold _ hlang
          · exact rtok_optQ_fold _ hloc
      | nonMulti sec' main sub params id desc enc size env envBody lines md5
          disp lang loc =>
        unfold wfBody at hwf
        simp only [Bool.and_eq_true] at hwf
        obtain ⟨⟨⟨⟨⟨⟨⟨⟨⟨⟨_, hmain⟩, hsub'⟩, hparams⟩, hid⟩, hdesc⟩, henc⟩,
          hdisp⟩, hlang⟩, hloc⟩, hshape⟩ := hwf
        have hlangM := wfLangLeaf_multi hlang
        intro t ht
        by_cases htext : main = some "text"
        · rw [if_pos htext] at hshape
          simp only [Bool.and_eq_true, Option.isNone_iff_eq_none] at hshape
          obtain ⟨henvn, hebn⟩ := hshape
          subst henvn
          subst hebn
          rw [show bodyFields (Body.nonMulti sec' main sub params id desc
            enc size none none lines md5 disp lang loc) =
            [optQ main, optQ sub, encOptParams params, optQ id, optQ desc,
              optQ enc, optNatTok size] ++
            (if main = some "text" then [optNatTok lines] else []) ++ [] ++
            [optNatTok md5, encOptParams disp, encTokVal lang, optQ loc]
            from rfl, if_pos htext] at ht
          simp only [List.append_nil, List.mem_append, List.mem_cons,
            List.not_mem_nil, or_false] at ht
          rcases ht with ((rfl | rfl | rfl | rfl | rfl | rfl | rfl) |
            rfl) | rfl | rfl | rfl | rfl
          · exact rtok_optQ_foldNK _ hmain
          · exact rtok_optQ_foldNK _ hsub'
          · exact rtok_encOptParams _ hparams
          · exact rtok_optQ_foldNK _ hid
          · exact rtok_optQ_foldNK _ hdesc
          · exact rtok_optQ_foldNK _ henc
          · exact rtok_optNatTok _
          · exact rtok_optNatTok _
          · exact rtok_optNatTok _
          · exact rtok_encOptParams _ hdisp
          · exact rtok_encTokVal_fold _ hlangM
          · exact rtok_optQ_foldNK _ hloc
        · rw [if_neg htext] at hshape
          by_cases hmsg : main = some "message" ∧
              (sub = some "rfc822" ∨ sub = some "global")
          · rw [if_pos hmsg] at hshape
            cases env with
            | none => simp at hshape
            | some e =>
              cases envBody with
              | none => simp at hshape
              | some bb =>
                simp only [Bool.and_eq_true] at hshape
                obtain ⟨henvwf, hbbwf⟩ := hshape
                have hszbb : sizeOf bb ≤ n := by
                  simp only [Body.nonMulti.sizeOf_spec,
                    Option.some.sizeOf_spec] at hsz
                  omega
                have hfields : bodyFields (Body.nonMulti sec' main sub
                    params id desc enc size (some e) (some bb) lines md5
                    disp lang loc) =
                    [optQ main, optQ sub, encOptParams params, optQ id,
                      optQ desc, optQ enc, optNatTok size, encodeEnvelope e,
                      NTok.list (bodyFields bb), optNatTok lines,
                      optNatTok md5, encOptParams disp, encTokVal lang,
                      optQ loc] := by
                  simp [bodyFields, htext]
                rw [hfields] at ht
                simp only [List.mem_cons, List.not_mem_nil, or_false] at ht
                rcases ht with rfl | rfl | rfl | rfl | rfl | rfl | rfl |
                  rfl | rfl | rfl | rfl | rfl | rfl | rfl
                · exact rtok_optQ_foldNK _ hmain
                · exact rtok_optQ_foldNK _ hsub'
                · exact rtok_encOptParams _ hparams
                · exact rtok_optQ_foldNK _ hid
                · exact rtok_optQ_foldNK _ hdesc
                · exact rtok_optQ_foldNK _ henc
                · exact rtok_optNatTok _
                · exact rtok_encodeEnvelope e henvwf
                · exact RTok.list (ihb bb _ PTy.isMessage hszbb hbbwf)
                · exact rtok_optNatTok _
                · exact rtok_optNatTok _
                · exact rtok_encOptParams _ hdisp
                · exact rtok_encTokVal_fold _ hlangM
                · exact rtok_optQ_foldNK _ hloc
          · rw [if_neg hmsg] at hshape
            simp only [Bool.and_eq_true, Option.isNone_iff_eq_none]
              at hshape
            obtain ⟨⟨henvn, hebn⟩, _⟩ := hshape
            subst henvn
            subst hebn
            rw [show bodyFields (Body.nonMulti sec' main sub params id desc
              enc size none none lines md5 disp lang loc) =
              [optQ main, optQ sub, encOptParams params, optQ id, optQ desc,
                optQ enc, optNatTok size] ++
              (if main = some "text" then [optNatTok lines] else []) ++
              [] ++
              [optNatTok md5, encOptParams disp, encTokVal lang, optQ loc]
              from rfl, if_neg htext] at ht
            simp only [List.append_nil, List.mem_append, List.mem_cons,
              List.not_mem_nil, or_false] at ht
            rcases ht with (rfl | rfl | rfl | rfl | rfl | rfl | rfl) |
              rfl | rfl | rfl | rfl
            · exact rtok_optQ_foldNK _ hmain
            · exact rtok_optQ_foldNK _ hsub'
            · exact rtok_encOptParams _ hparams
            · exact rtok_optQ_foldNK _ hid
            · exact rtok_optQ_foldNK _ hdesc
            · exact rtok_optQ_foldNK _ henc
            · exact rtok_optNatTok _
            · exact rtok_optNatTok _
            · exact rtok_encOptParams _ hdisp
            · exact rtok_encTokVal_fold _ hlangM
            · exact rtok_optQ_foldNK _ hloc
    · intro parts base k hsz hwf
      cases parts with
      | nil =>
        intro t ht
        simp [encBodyList] at ht
      | cons b bs =>
        simp only [wfSub, Bool.and_eq_true] at hwf
        obtain ⟨hb, hbs⟩ := hwf
        have hszb : sizeOf b ≤ n := by
          simp only [List.cons.sizeOf_spec] at hsz
          omega
        have hszbs : sizeOf bs ≤ n := by
          simp only [List.cons.sizeOf_spec] at hsz
          omega
        intro t ht
        rw [show encBodyList (b :: bs) =
          NTok.list (bodyFields b) :: encBodyList bs from rfl] at ht
        rcases List.mem_cons.mp ht with rfl | ht
        · exact RTok.list (ihb b _ PTy.isMultipart hszb hb)
        · exact ihs bs base (k + 1) hszbs hbs t ht

/-- C4: for every well-formed `Envelope` and `BodyStructure` tree
serialized by the reference encoder into the textual `(ENVELOPE ...)` /
`(BODYSTRUCTURE ...)` fetch-item form, `load_envelope` and
`load_bodystructure` reproduce the tree field-for-field, including nested
embedded-message structures; well-formedness requires the stored section
paths to be exactly the canonical ones, i.e. multipart children numbered
contiguously from 1 in document order at every level, and an embedded
message's section path gaining a synthetic `text` component before its
own parts are numbered from 1. -/
theorem parser_round_trip (e : Envelope) (b : Body)
    (he : wfEnvelope e = true) (hb : wfBody [] PTy.isMessage b = true) :
    load_envelope (encodeEnvelopeText e) = some e ∧
    load_bodystructure (encodeBodyText b) = some b := by
  constructor
  · show loadEnvelopeFromNested (nest_tokens (tokenize
      (encodeEnvelopeText e))) = some e
    rw [show encodeEnvelopeText e = "(ENVELOPE".data ++ ' ' ::
      (renderTok (NTok.list (envFields e)) ++ [')']) from rfl]
    rw [tokenize_wrap _ _ (by decide) (by decide) (rtok_envFields e he)]
    rw [nest_flat _ (rtok_envFields e he)]
    exact loadEnvelope_enc e he
  · show loadBodyAux (nest_tokens (tokenize (encodeBodyText b))) []
      PTy.isMessage = some b
    rw [show encodeBodyText b = "(BODYSTRUCTURE".data ++ ' ' ::
      (renderTok (NTok.list (bodyFields b)) ++ [')']) from rfl]
    have hr : ∀ t ∈ bodyFields b, RTok t :=
      (rtok_body_main (sizeOf b)).1 b [] PTy.isMessage le_rfl hb
    rw [tokenize_wrap _ _ (by decide) (by decide) hr]
    rw [nest_flat _ hr]
    exact (loadBody_enc_main (sizeOf b)).1 b [] PTy.isMessage le_rfl hb

/-- A concrete envelope for the round-trip witness. -/
def c4Env : Envelope :=
  { subject := some "hello world"
    from_ := some [{ username := "alice"
                     domain := "example.org"
                     display_name := some "Alice" }]
    message_id := some "<id-1>" }

/-- A concrete body for the round-trip witness: a multipart with a text
leaf and an embedded message whose own part carries the nested section
path. -/
def c4Body : Body :=
  Body.multi [SecElem.txt] "mixed"
    [Body.nonMulti [SecElem.num 1] (some "text") (some "plain")
      (some [("charset", ParamVal.str "utf-8")]) none none
      (some "base64") (some 42) none none (some 3) none none none none,
     Body.nonMulti [SecElem.num 2] (some "message") (some "rfc822")
      none none none none (some 512)
      (some { subject := some "inner" })
      (some (Body.nonMulti [SecElem.num 2, SecElem.num 1] (some "text")
        (some "plain") none none none none (some 7) none none (some 1)
        none none none none))
      (some 9) none none none none]
    none none none none

theorem parser_round_trip_witness :
    load_envelope (encodeEnvelopeText c4Env) = some c4Env ∧
    load_bodystructure (encodeBodyText c4Body) = some c4Body :=
  parser_round_trip c4Env c4Body (by decide)
    (by simp only [c4Body, wfBody, wfSub]; decide)

end MailDL
